import Mathlib

/-!
# PrefixTable (src/PrefixTable.cc): a shallow embedding and its verified properties

The C++ class `PrefixTable` wraps a Patricia trie. The wrapper (key construction, the
`Insert`/`Lookup`/`Remove`/`FindAll` front ends on keys and on tagged values, and the
explicit-stack iterator) is embedded from `src/PrefixTable.cc`. The trie engine it
calls (`patricia_lookup`, `patricia_search_exact`, `patricia_search_best`,
`patricia_search_all`, `patricia_remove`) is not part of that file: the embedded
operations take it as a parameter (`Engine`), and a path-compressed binary trie written
after sections 3 and 4 of the specification is supplied for it (`patricia`).

Pointers to `void` and node addresses are natural numbers, `0` being the null pointer.
A `patricia_node_t*` that points into the trie is represented by the position of the
node (the list of left/right turns from `head`); the numeric value of such a pointer,
needed only where the wrapper stores it in a payload slot, is the node's `addr` field.
Reference counting and the release of memory are not represented.
-/

set_option autoImplicit false
set_option maxRecDepth 100000

namespace PrefixTable

/-! ## Data model -/

/-- The family reported by `IPAddr::GetFamily()`. -/
inductive IPFamily
| IPv4
| IPv6
deriving DecidableEq, Repr

/-- The two values `MakePrefix` ever assigns to `prefix_t::family`. -/
inductive sa_family
| AF_INET
| AF_INET6
deriving DecidableEq, Repr

/-- An `IPAddr` (the class is declared outside `PrefixTable.cc`) as the wrapper uses it:
the family `GetFamily()` reports and the address bytes that `CopyIPv4`/`CopyIPv6` copy,
read as a big-endian number (32 significant bits for IPv4, 128 for IPv6). -/
structure IPAddr where
  family : IPFamily
  bits : Nat
deriving DecidableEq, Repr

/-- The `prefix_t` record (declared outside `PrefixTable.cc`) with the four fields
`MakePrefix` fills in; `add` is the union of `sin` (32 bits) and `sin6` (128 bits) read
as a big-endian number, and `bitlen` is a 16-bit unsigned field, a number below 65536. -/
structure prefix_t where
  family : sa_family
  bitlen : Nat
  ref_count : Nat
  add : Nat
deriving DecidableEq, Repr

/-- An `IPPrefix` value (the class is declared outside `PrefixTable.cc`) as the wrapper
builds and reads it: the address `Prefix()` and the length `Length()`. -/
structure IPPrefix where
  Prefix : IPAddr
  Length : Int
deriving DecidableEq, Repr

/-- Modelled from the spec: the node type of the trie, whose declaration is not in
`PrefixTable.cc`. A `patricia_node_t*` is either the null pointer or a node with the
fields the wrapper reads and writes: the optional key (`pfx`, the C field named prefix),
the payload slot `data` and the children `l` (bit 0) and `r` (bit 1); with the node's
own address `addr` and, from section 3 of the specification, the depth `bit` of the node
on the bit path, which is the position at which its children branch. -/
inductive patricia_node_t
| null
| node (addr : Nat) (bit : Nat) (pfx : Option prefix_t) (data : Nat)
    (l r : patricia_node_t)
deriving DecidableEq, Repr

/-- The `patricia_tree_t` (declared outside `PrefixTable.cc`) as far as the wrapper
touches it: the `head` pointer. -/
structure patricia_tree_t where
  head : patricia_node_t
deriving DecidableEq, Repr

/-- The class state: the member `tree`. -/
structure Table where
  tree : patricia_tree_t
deriving DecidableEq, Repr

/-- The nested struct `PrefixTable::iterator` (declared in the header, with the four
members `GetNext` uses). `Xstack` lists the entries between `Xstack` and `Xsp`, the most
recently pushed first, so `Xsp - Xstack` is its length; the capacity of the C array is
not modelled, the depth of the stack is bounded by theorem. -/
structure iterator where
  Xstack : List patricia_node_t
  Xrn : patricia_node_t
  Xnode : patricia_node_t
deriving DecidableEq, Repr

namespace patricia_node_t

/-- The test `! p` on a node pointer. -/
def isNull : patricia_node_t → Bool
  | null => true
  | node _ _ _ _ _ _ => false

/-- The test `node->prefix` (non-null key pointer). -/
def hasPfx : patricia_node_t → Bool
  | null => false
  | node _ _ p _ _ _ => p.isSome

/-- The field read `node->data`. -/
def dataOf : patricia_node_t → Nat
  | null => 0
  | node _ _ _ d _ _ => d

/-- All nodes of a tree in depth-first pre-order: node, left subtree, right subtree. -/
def preorder : patricia_node_t → List patricia_node_t
  | null => []
  | node a b p d l r => node a b p d l r :: (preorder l ++ preorder r)

/-- Number of levels of a tree (0 for the empty tree, 1 for a single node). -/
def height : patricia_node_t → Nat
  | null => 0
  | node _ _ _ _ l r => 1 + max (height l) (height r)

/-- The subtree reached from a node by a list of turns (`false` = `l`, `true` = `r`). -/
def subtreeAt : patricia_node_t → List Bool → patricia_node_t
  | t, [] => t
  | null, _ :: _ => null
  | node _ _ _ _ l _, false :: ps => subtreeAt l ps
  | node _ _ _ _ _ r, true :: ps => subtreeAt r ps

/-- Every node that holds a key has a non-null payload. -/
def PayloadOK : patricia_node_t → Prop
  | null => True
  | node _ _ p d l r => (p.isSome = true → d ≠ 0) ∧ PayloadOK l ∧ PayloadOK r

end patricia_node_t

open patricia_node_t

/-- The payloads of the key-holding nodes, in pre-order. -/
def payloads (t : patricia_node_t) : List Nat :=
  ((preorder t).filter hasPfx).map dataOf

/-! ## The iterator (`InitIterator`, `GetNext`) -/

/-- `PrefixTable::InitIterator`. -/
def InitIterator (T : Table) : iterator :=
  { Xstack := [], Xrn := T.tree.head, Xnode := null }

/-- One pass through the body of the `while ( 1 )` loop of `GetNext`:
`some v` when the body returns `v`, `none` when the loop goes round again. -/
def GetNext.body (i : iterator) : iterator × Option Nat :=
  let i1 : iterator := { i with Xnode := i.Xrn }
  match i1.Xnode with
  | null => (i1, some 0)
  | node _ _ p d l r =>
    let i2 : iterator :=
      if !l.isNull then
        { i1 with Xstack := if !r.isNull then r :: i1.Xstack else i1.Xstack, Xrn := l }
      else if !r.isNull then
        { i1 with Xrn := r }
      else
        match i1.Xstack with
        | top :: rest => { i1 with Xstack := rest, Xrn := top }
        | [] => { i1 with Xrn := null }
    (i2, if p.isSome then some d else none)

/-- The nodes still to be visited by an iterator, in visiting order. -/
def stackNodes : List patricia_node_t → List patricia_node_t
  | [] => []
  | s :: rest => preorder s ++ stackNodes rest

/-- The nodes an iterator has yet to visit: those under `Xrn`, then those under the
stacked nodes from the top of the stack down. -/
def toVisit (i : iterator) : List patricia_node_t :=
  preorder i.Xrn ++ stackNodes i.Xstack

/-- The `while ( 1 )` loop of `GetNext`, run for at most the given number of passes:
`none` when the loop has not returned within them. -/
def GetNext.loop : Nat → iterator → Option (iterator × Nat)
  | 0, _ => none
  | fuel + 1, i =>
    match GetNext.body i with
    | (i2, some v) => some (i2, v)
    | (i2, none) => GetNext.loop fuel i2

/-- `PrefixTable::GetNext`: the loop, given one pass per node still to visit plus one.
Within that many passes the loop returns (`GetNext_returns`), so the alternative of
`getD` is never taken. -/
def GetNext (i : iterator) : iterator × Nat :=
  (GetNext.loop ((toVisit i).length + 1) i).getD (i, 0)

/-- The results of `n` successive calls of `GetNext`. -/
def drain : Nat → iterator → List Nat
  | 0, _ => []
  | n + 1, i => (GetNext i).2 :: drain n (GetNext i).1

/-- The iterator after `n` successive calls of `GetNext`. -/
def afterCalls : Nat → iterator → iterator
  | 0, i => i
  | n + 1, i => afterCalls n (GetNext i).1

/-- The iterator after `n` passes through the loop body. -/
def afterPasses : Nat → iterator → iterator
  | 0, i => i
  | n + 1, i => afterPasses n (GetNext.body i).1

/-- The iterator invariant: stacked nodes are non-null and a null `Xrn` comes with
an empty stack. -/
def IterOK (i : iterator) : Prop :=
  (∀ s ∈ i.Xstack, s ≠ null) ∧ (i.Xrn = null → i.Xstack = [])

/-- The payloads an iterator has yet to return. -/
def pend (i : iterator) : List Nat :=
  ((toVisit i).filter hasPfx).map dataOf

/-- Every stacked node sits in the tree `t` at a depth greater than the number of
stack entries below it. -/
def StackDeep (t : patricia_node_t) : List patricia_node_t → Prop
  | [] => True
  | s :: rest => (∃ q, subtreeAt t q = s ∧ rest.length + 1 ≤ q.length) ∧ StackDeep t rest

/-- The node about to be visited sits in `t` at a depth that is at least the number
of stack entries. -/
def DepthOK (t : patricia_node_t) (i : iterator) : Prop :=
  IterOK i ∧ StackDeep t i.Xstack ∧
    (i.Xrn ≠ null → ∃ p, subtreeAt t p = i.Xrn ∧ i.Xstack.length ≤ p.length)

/-! ## Key construction (`MakePrefix`, `PrefixToIPPrefix`) -/

/-- Number of address bits a `prefix_t` of the given family carries (`sin`: 32, `sin6`: 128). -/
def sa_family.maxbits : sa_family → Nat
  | .AF_INET => 32
  | .AF_INET6 => 128

/-- `PrefixTable::MakePrefix`: `CopyIPv4` copies 4 bytes, `CopyIPv6` copies 16; the
width, an `int`, is assigned without any check to the 16-bit unsigned `bitlen`, which
keeps it modulo 65536. -/
def MakePrefix (addr : IPAddr) (width : Int) : prefix_t :=
  if addr.family = IPFamily.IPv4 then
    { family := sa_family.AF_INET, bitlen := (width % 65536).toNat, ref_count := 1,
      add := addr.bits % 2 ^ 32 }
  else
    { family := sa_family.AF_INET6, bitlen := (width % 65536).toNat, ref_count := 1,
      add := addr.bits % 2 ^ 128 }

/-- Modelled from the spec: `IPAddr::Mask`, which is not in `PrefixTable.cc`: of an
address of `size` bits the top `len` bits are kept and the host bits below them are
cleared (a prefix is the top bits of an address, section 3). -/
def maskHost (size len bits : Nat) : Nat :=
  (bits >>> (size - len)) <<< (size - len)

/-- Modelled from the spec: the constructor `IPPrefix(addr, length)`, which is not in
`PrefixTable.cc`. A prefix has a length within the bit size of its family and is the
top `length` bits of the address (section 3): the constructor ends the program with an
internal error (`none`) for a length above the bit size of the family of the address,
and otherwise keeps the length and the address with its host bits cleared. -/
def IPPrefix.make (addr : IPAddr) (length : Nat) : Option IPPrefix :=
  if length > (if addr.family = IPFamily.IPv4 then 32 else 128) then none
  else some
    { Prefix := { family := addr.family,
                  bits := maskHost (if addr.family = IPFamily.IPv4 then 32 else 128) length
                    addr.bits },
      Length := length }

/-- `PrefixTable::PrefixToIPPrefix`: the address is rebuilt from the 4 or 16 bytes of
`add` and handed with `bitlen`, taken as an 8-bit length, to the `IPPrefix`
constructor; `none` when that constructor ends the program. The family of a `prefix_t`
is only ever assigned by `MakePrefix`, so the third branch of the C++ (unknown family, a
warning and an empty `IPPrefix`) has no value of `sa_family` that reaches it. -/
def PrefixToIPPrefix (p : prefix_t) : Option IPPrefix :=
  match p.family with
  | .AF_INET =>
    IPPrefix.make { family := IPFamily.IPv4, bits := p.add % 2 ^ 32 } (p.bitlen % 256)
  | .AF_INET6 =>
    IPPrefix.make { family := IPFamily.IPv6, bits := p.add % 2 ^ 128 } (p.bitlen % 256)

/-- Modelled from the spec: bit `i` of the address of a key as the trie engine (not in
`PrefixTable.cc`) reads it, bit 0 being the most significant one (section 4.2);
positions past the address read as 0. -/
def prefix_t.addrBit (p : prefix_t) (i : Nat) : Bool :=
  decide (i < p.family.maxbits) && p.add.testBit (p.family.maxbits - 1 - i)

/-- The top `bitlen` address bits of a key, from the most significant one. -/
def prefix_t.topBits (p : prefix_t) : List Bool :=
  (List.range p.bitlen).map p.addrBit

/-- Modelled from the spec: the bit path of a key in the trie engine (not in
`PrefixTable.cc`). Keys are (family, bits, length) triples and keys of different
families never alias (section 3): the path is the family tag followed by the top
`bitlen` address bits from the most significant one, so the depth of a key's node is
its bit-length plus one. -/
def prefix_t.keyBits (p : prefix_t) : List Bool :=
  (p.family == sa_family.AF_INET6) :: p.topBits

/-- A key as the data model has it: a width between 0 and the family's bit size. -/
def WellFormedKey (addr : IPAddr) (width : Int) : Prop :=
  0 ≤ width ∧ width ≤ (if addr.family = IPFamily.IPv4 then 32 else 128)

/-- Key equality of the data model: same family, same bit-length and the same top
`bitlen` address bits. -/
def sameKey (p q : prefix_t) : Prop :=
  p.family = q.family ∧ p.bitlen = q.bitlen ∧ p.topBits = q.topBits

/-- Containment of prefixes: `q` contains `k` when both have the same family, `q` is no
longer than `k` and the top `q.bitlen` address bits of both agree. -/
def covers (q k : prefix_t) : Prop :=
  q.family = k.family ∧ q.bitlen ≤ k.bitlen ∧ ∀ i, i < q.bitlen → q.addrBit i = k.addrBit i

/-! ## Accessors and contents of node trees -/

namespace patricia_node_t

/-- The field read `node->prefix`. -/
def pfxOf : patricia_node_t → Option prefix_t
  | null => none
  | node _ _ p _ _ _ => p

/-- The numeric value of a node pointer. -/
def addrOf : patricia_node_t → Nat
  | null => 0
  | node a _ _ _ _ _ => a

/-- The field read `node->bit`. -/
def bitOf : patricia_node_t → Nat
  | null => 0
  | node _ b _ _ _ _ => b

/-- The assignment `node->data = v` to the node at position `pos`. -/
def setData : patricia_node_t → List Bool → Nat → patricia_node_t
  | null, _, _ => null
  | node a b p _ l r, [], v => node a b p v l r
  | node a b p d l r, false :: ps, v => node a b p d (setData l ps v) r
  | node a b p d l r, true :: ps, v => node a b p d l (setData r ps v)

/-- The keys stored in a tree with their payloads, in pre-order. -/
def entries : patricia_node_t → List (prefix_t × Nat)
  | null => []
  | node _ _ p d l r => (p.map (fun q => (q, d))).toList ++ (entries l ++ entries r)

/-- The keys stored in a tree, in pre-order. -/
def stored (t : patricia_node_t) : List prefix_t :=
  (entries t).map Prod.fst

/-- The bit paths of the keys stored in a tree. -/
def keysOf (t : patricia_node_t) : List (List Bool) :=
  (stored t).map prefix_t.keyBits

/-- The largest node address in use in a tree. -/
def maxAddr : patricia_node_t → Nat
  | null => 0
  | node a _ _ _ l r => max a (max (maxAddr l) (maxAddr r))

/-- The positions of the key-holding nodes of a tree, in pre-order. -/
def collect : patricia_node_t → List (List Bool)
  | null => []
  | node _ _ p _ l r =>
    (if p.isSome then [[]] else []) ++
      ((collect l).map (List.cons false) ++ (collect r).map (List.cons true))

end patricia_node_t

/-! ## The operations of `PrefixTable.cc`, over the trie engine they call -/

/-- The functions of the Patricia library that `PrefixTable.cc` calls and does not
define. A node pointer is a position in the tree; `lookup` and `remove` return the tree
they leave behind; the searches only read the tree. -/
structure Engine where
  lookup : patricia_tree_t → prefix_t → patricia_tree_t × Option (List Bool)
  search_exact : patricia_tree_t → prefix_t → Option (List Bool)
  search_best : patricia_tree_t → prefix_t → Option (List Bool)
  search_all : patricia_tree_t → prefix_t → List (List Bool)
  remove : patricia_tree_t → List Bool → patricia_tree_t

/-- A script value as far as the table looks at it: its type tag with the content the
accessors `AsAddr`, `AsSubNet` and `AsListVal` give; `other` stands for every tag
besides `TYPE_ADDR`, `TYPE_SUBNET` and `TYPE_LIST`. -/
inductive Val
| addr (a : IPAddr)
| subnet (s : IPPrefix)
| list (elems : List Val)
| other (tag : Nat)

/-- The step `[elem] -> elem`: a list value of length 1 is replaced by its element. -/
def Val.unwrap : Val → Val
  | Val.list [e] => e
  | v => v

/-- The loop of `FindAll`, `out.push_back(PrefixToIPPrefix(list[i]->prefix))` for every
node found: the converted keys, or `none` when the program ends in it, on a node without
a key (a null pointer is read) or in the conversion. -/
def FindAll.loop (head : patricia_node_t) : List (List Bool) → Option (List IPPrefix)
  | [] => some []
  | nd :: rest =>
    match pfxOf (subtreeAt head nd) with
    | none => none
    | some q =>
      match PrefixToIPPrefix q with
      | none => none
      | some x => (FindAll.loop head rest).map (List.cons x)

namespace Engine

/-- `PrefixTable::Insert(const IPAddr&, int, void*)`. -/
def Insert (E : Engine) (T : Table) (addr : IPAddr) (width : Int) (data : Nat) : Table × Nat :=
  let pfx := MakePrefix addr width
  let res := E.lookup T.tree pfx
  match res.2 with
  | none => ({ tree := res.1 }, 0)
  | some nd =>
    let old := dataOf (subtreeAt res.1.head nd)
    let val := if data ≠ 0 then data else addrOf (subtreeAt res.1.head nd)
    ({ tree := { head := setData res.1.head nd val } }, old)

/-- `PrefixTable::FindAll(const IPAddr&, int)`: the keys of the nodes found, converted
one after the other; `none` when the program ends in the loop. -/
def FindAll (E : Engine) (T : Table) (addr : IPAddr) (width : Int) : Option (List IPPrefix) :=
  let pfx := MakePrefix addr width
  let list := E.search_all T.tree pfx
  FindAll.loop T.tree.head list

/-- `PrefixTable::Lookup(const IPAddr&, int, bool)`. -/
def Lookup (E : Engine) (T : Table) (addr : IPAddr) (width : Int) (exact : Bool) : Nat :=
  let pfx := MakePrefix addr width
  let node := if exact then E.search_exact T.tree pfx else E.search_best T.tree pfx
  match node with
  | some nd => dataOf (subtreeAt T.tree.head nd)
  | none => 0

/-- `PrefixTable::Remove(const IPAddr&, int)`. -/
def Remove (E : Engine) (T : Table) (addr : IPAddr) (width : Int) : Table × Nat :=
  let pfx := MakePrefix addr width
  let node := E.search_exact T.tree pfx
  match node with
  | none => (T, 0)
  | some nd =>
    let old := dataOf (subtreeAt T.tree.head nd)
    ({ tree := E.remove T.tree nd }, old)

/-- `PrefixTable::Insert(const Val*, void*)`. -/
def InsertVal (E : Engine) (T : Table) (value : Val) (data : Nat) : Table × Nat :=
  match value.unwrap with
  | Val.addr a => E.Insert T a (if a.family = IPFamily.IPv4 then 32 else 128) data
  | Val.subnet s => E.Insert T s.Prefix s.Length data
  | _ => (T, 0)

/-- `PrefixTable::FindAll(const SubNetVal*)`. -/
def FindAllVal (E : Engine) (T : Table) (value : IPPrefix) : Option (List IPPrefix) :=
  E.FindAll T value.Prefix value.Length

/-- `PrefixTable::Lookup(const Val*, bool)`. -/
def LookupVal (E : Engine) (T : Table) (value : Val) (exact : Bool) : Nat :=
  match value.unwrap with
  | Val.addr a => E.Lookup T a (if a.family = IPFamily.IPv4 then 32 else 128) exact
  | Val.subnet s => E.Lookup T s.Prefix s.Length exact
  | _ => 0

/-- `PrefixTable::Remove(const Val*)`. -/
def RemoveVal (E : Engine) (T : Table) (value : Val) : Table × Nat :=
  match value.unwrap with
  | Val.addr a => E.Remove T a (if a.family = IPFamily.IPv4 then 32 else 128)
  | Val.subnet s => E.Remove T s.Prefix s.Length
  | _ => (T, 0)

end Engine

/-! ## The trie engine, modelled -/

/-- Modelled from the spec: part of the trie engine that is not in `PrefixTable.cc`: the
number of leading positions on which two bit paths agree (the point of divergence). -/
def lcp : List Bool → List Bool → Nat
  | x :: xs, y :: ys => if x = y then lcp xs ys + 1 else 0
  | _, _ => 0

/-- Modelled from the spec: part of the trie engine that is not in `PrefixTable.cc`: the
bit path of the first key found under a node (its own, else the first one in its left
subtree, else in its right one); every key below a node shares the node's own path,
which structural nodes do not store. -/
def repKey : patricia_node_t → List Bool
  | null => []
  | node _ _ (some q) _ _ _ => q.keyBits
  | node _ _ none _ l r => if l.isNull then repKey r else repKey l

/-- Modelled from the spec: part of the trie engine that is not in `PrefixTable.cc`: a
fresh leaf holding the key `p` and no payload. -/
def newLeaf (a : Nat) (p : prefix_t) : patricia_node_t :=
  node a p.keyBits.length (some p) 0 null null

/-- Modelled from the spec: the descent of `patricia_lookup` (the trie engine is not
part of `PrefixTable.cc`), section 4.2. It follows the edges while the stored bits
match the key and ends in one of the outcomes listed there: the node that already
has the key (a structural node at that place receives it), a new branching node at
the point of divergence with a new leaf, a new leaf on a free edge, or the new node
put on the edge it runs out in, above the existing deeper node. New nodes take the
addresses `nx` (key node) and `nx + 1` (branching node). The result is the new
subtree and the position of the key's node in it. -/
def ins (nx : Nat) (p : prefix_t) : patricia_node_t → patricia_node_t × List Bool
  | null => (newLeaf nx p, [])
  | node a b pre d l r =>
    let k := p.keyBits
    let rep := repKey (node a b pre d l r)
    let m := min (lcp k rep) b
    if m < b then
      if m = k.length then
        (if rep.getD m false then node nx m (some p) 0 null (node a b pre d l r)
          else node nx m (some p) 0 (node a b pre d l r) null, [])
      else if k.getD m false then
        (node (nx + 1) m none 0 (node a b pre d l r) (newLeaf nx p), [true])
      else
        (node (nx + 1) m none 0 (newLeaf nx p) (node a b pre d l r), [false])
    else if k.length = b then
      (node a b (if pre.isSome then pre else some p) d l r, [])
    else if k.getD b false then
      (node a b pre d l (ins nx p r).1, true :: (ins nx p r).2)
    else
      (node a b pre d (ins nx p l).1 r, false :: (ins nx p l).2)

/-- Modelled from the spec: `patricia_lookup` (absent from `PrefixTable.cc`), section
4.2: finds or creates the node of a key and returns a pointer to it; for well-formed
keys it always succeeds. A new node gets an address above all addresses in use. -/
def patricia_lookup (tree : patricia_tree_t) (p : prefix_t) :
    patricia_tree_t × Option (List Bool) :=
  let res := ins (maxAddr tree.head + 1) p tree.head
  ({ head := res.1 }, some res.2)

/-- Modelled from the spec: the descent of `patricia_search_exact` (not in
`PrefixTable.cc`) below a node, on the bit path `k` of the key, section 4.3. -/
def searchExact : patricia_node_t → List Bool → Option (List Bool)
  | null, _ => none
  | node _ b pre _ l r, k =>
    if b < k.length then
      if k.getD b false then (searchExact r k).map (List.cons true)
      else (searchExact l k).map (List.cons false)
    else
      match pre with
      | some q => if b = k.length ∧ q.keyBits = k then some [] else none
      | none => none

/-- Modelled from the spec: `patricia_search_exact` (absent from `PrefixTable.cc`),
section 4.3: descends consuming exactly the key's bits and returns the node there
only if it holds a key identical to the searched one (same family, bit-length, bits). -/
def patricia_search_exact (tree : patricia_tree_t) (p : prefix_t) : Option (List Bool) :=
  searchExact tree.head p.keyBits

/-- Modelled from the spec: the descent of `patricia_search_best` (not in
`PrefixTable.cc`) below a node, on the bit path `k`, section 4.4: the deepest node on
the path whose key is a prefix of `k`. -/
def searchBest : patricia_node_t → List Bool → Option (List Bool)
  | null, _ => none
  | node _ b pre _ l r, k =>
    let deeper : Option (List Bool) :=
      if b < k.length then
        if k.getD b false then (searchBest r k).map (List.cons true)
        else (searchBest l k).map (List.cons false)
      else none
    match deeper with
    | some pos => some pos
    | none =>
      match pre with
      | some q => if q.keyBits.isPrefixOf k then some [] else none
      | none => none

/-- Modelled from the spec: `patricia_search_best` (absent from `PrefixTable.cc`),
section 4.4: descends along the bit path of the key and, among the nodes on that path
holding a key no longer than the searched one whose bits are a prefix of its bits,
returns the one with the greatest bit-length. -/
def patricia_search_best (tree : patricia_tree_t) (p : prefix_t) : Option (List Bool) :=
  searchBest tree.head p.keyBits

/-- Modelled from the spec: the descent of `patricia_search_all` (not in
`PrefixTable.cc`) below a node, on the bit path `k`, section 4.5: the nodes on the path
whose key is a prefix of `k`, then, past the depth of `k`, all key-holding nodes of
the subtree there when its keys extend `k`. -/
def searchAll : patricia_node_t → List Bool → List (List Bool)
  | null, _ => []
  | node a b pre d l r, k =>
    if b < k.length then
      (match pre with
        | some q => if q.keyBits.isPrefixOf k then [[]] else []
        | none => []) ++
      (if k.getD b false then (searchAll r k).map (List.cons true)
        else (searchAll l k).map (List.cons false))
    else if k.isPrefixOf (repKey (node a b pre d l r)) then collect (node a b pre d l r)
    else []

/-- Modelled from the spec: `patricia_search_all` (absent from `PrefixTable.cc`),
section 4.5: the nodes with a key that contains the searched key (on the path, root
first), then the key-holding nodes of the subtree reached past the key's depth, whose
keys extend the searched key, in pre-order. -/
def patricia_search_all (tree : patricia_tree_t) (p : prefix_t) : List (List Bool) :=
  searchAll tree.head p.keyBits

/-- Modelled from the spec: part of `patricia_remove` (not in `PrefixTable.cc`),
sections 3 and 4.6: a node without a key and with fewer than two children is deleted,
its child, if any, taking its place. -/
def collapse : patricia_node_t → patricia_node_t
  | node a b none d l r =>
    if l.isNull then r else if r.isNull then l else node a b none d l r
  | t => t

/-- Modelled from the spec: the work of `patricia_remove` (not in `PrefixTable.cc`),
section 4.6: the key and payload of the node at the position are cleared, and on the
way back to the root every key-less node left with fewer than two children is
collapsed. -/
def removeAt : patricia_node_t → List Bool → patricia_node_t
  | null, _ => null
  | node a b _ _ l r, [] => collapse (node a b none 0 l r)
  | node a b pre d l r, false :: ps => collapse (node a b pre d (removeAt l ps) r)
  | node a b pre d l r, true :: ps => collapse (node a b pre d l (removeAt r ps))

/-- Modelled from the spec: `patricia_remove` (absent from `PrefixTable.cc`), section
4.6: clears the key and payload of the given node, deletes it when it has fewer than
two children and collapses key-less pass-through ancestors. -/
def patricia_remove (tree : patricia_tree_t) (node : List Bool) : patricia_tree_t :=
  { head := removeAt tree.head node }

/-- Modelled from the spec: `New_Patricia` (absent from `PrefixTable.cc`): the empty trie. -/
def New_Patricia : patricia_tree_t := { head := null }

/-! ## The table with the modelled engine -/

/-- Modelled from the spec: the trie engine, made of the five modelled functions that
are absent from `PrefixTable.cc`. -/
def patricia : Engine :=
  { lookup := patricia_lookup
    search_exact := patricia_search_exact
    search_best := patricia_search_best
    search_all := patricia_search_all
    remove := patricia_remove }

/-- `PrefixTable::Insert(const IPAddr&, int, void*)` on the modelled engine. -/
def Insert (T : Table) (addr : IPAddr) (width : Int) (data : Nat) : Table × Nat :=
  patricia.Insert T addr width data

/-- `PrefixTable::FindAll(const IPAddr&, int)` on the modelled engine. -/
def FindAll (T : Table) (addr : IPAddr) (width : Int) : Option (List IPPrefix) :=
  patricia.FindAll T addr width

/-- `PrefixTable::Lookup(const IPAddr&, int, bool)` on the modelled engine. -/
def Lookup (T : Table) (addr : IPAddr) (width : Int) (exact : Bool) : Nat :=
  patricia.Lookup T addr width exact

/-- `PrefixTable::Remove(const IPAddr&, int)` on the modelled engine. -/
def Remove (T : Table) (addr : IPAddr) (width : Int) : Table × Nat :=
  patricia.Remove T addr width

/-- The table a `PrefixTable` starts as. -/
def emptyTable : Table := { tree := New_Patricia }

/-! ## Invariants of the table -/

/-- The trie invariant: node addresses are non-null; a node with a key sits at the
depth of that key; a node without a key has both children; the keys in the left
(right) subtree have bit 0 (1) at the node's branching position; all keys under a node
agree on the positions before it; children branch at later positions. -/
def WF : patricia_node_t → Prop
  | null => True
  | node a b pre d l r =>
    a ≠ 0 ∧ (∀ q ∈ pre, q.keyBits.length = b) ∧
    (pre = none → l ≠ null ∧ r ≠ null) ∧
    (∀ x ∈ keysOf l, x[b]? = some false) ∧
    (∀ x ∈ keysOf r, x[b]? = some true) ∧
    (∀ x ∈ keysOf (node a b pre d l r), ∀ y ∈ keysOf (node a b pre d l r), b ≤ lcp x y) ∧
    (l ≠ null → b < bitOf l) ∧ (r ≠ null → b < bitOf r) ∧ WF l ∧ WF r

/-- The widths of all stored keys lie between 0 and the bit size of their family. -/
def KeysOK (t : patricia_node_t) : Prop :=
  ∀ q ∈ stored t, q.bitlen ≤ q.family.maxbits

/-- A table state between two operations: the trie invariant holds, every stored key
is well-formed and every key-holding node has a non-null payload. -/
def TableOK (T : Table) : Prop :=
  WF T.tree.head ∧ KeysOK T.tree.head ∧ PayloadOK T.tree.head

/-- The classification of an input value as the specification words it (section 4.1):
the key it stands for, or `none` for `UnsupportedKeyType`. -/
def classify : Val → Option (IPAddr × Int)
  | Val.addr a => some (a, if a.family = IPFamily.IPv4 then 32 else 128)
  | Val.subnet s => some (s.Prefix, s.Length)
  | Val.list [Val.addr a] => some (a, if a.family = IPFamily.IPv4 then 32 else 128)
  | Val.list [Val.subnet s] => some (s.Prefix, s.Length)
  | _ => none

/-- A call that changes the table. -/
inductive Op
| insert (addr : IPAddr) (width : Int) (data : Nat)
| remove (addr : IPAddr) (width : Int)
deriving DecidableEq, Repr

/-- The key a call is made with. -/
def Op.key : Op → prefix_t
  | Op.insert a w _ => MakePrefix a w
  | Op.remove a w => MakePrefix a w

/-- The call is made with a well-formed key. -/
def Op.WellFormed : Op → Prop
  | Op.insert a w _ => WellFormedKey a w
  | Op.remove a w => WellFormedKey a w

/-- The table after a call. -/
def Op.apply (T : Table) : Op → Table
  | Op.insert a w d => (Insert T a w d).1
  | Op.remove a w => (Remove T a w).1

/-- The table reached from the empty table by a sequence of calls. -/
def run (ops : List Op) : Table :=
  ops.foldl Op.apply emptyTable

/-- A key equal to `k` has been inserted in the history `ops` and not been removed
since. -/
def LiveIn (ops : List Op) (k : prefix_t) : Prop :=
  ∃ (before after : List Op) (a : IPAddr) (w : Int) (d : Nat),
    ops = before ++ Op.insert a w d :: after ∧ sameKey (MakePrefix a w) k ∧
    ∀ a2 w2, Op.remove a2 w2 ∈ after → ¬ sameKey (MakePrefix a2 w2) k

/-! ## Decision procedures for the invariants -/

instance WellFormedKey.decide (addr : IPAddr) (width : Int) : Decidable (WellFormedKey addr width) := by
  unfold WellFormedKey; exact inferInstance

instance sameKey.decide (p q : prefix_t) : Decidable (sameKey p q) := by
  unfold sameKey; exact inferInstance

instance covers.decide (q k : prefix_t) : Decidable (covers q k) := by
  unfold covers; exact inferInstance

instance Op.WellFormed.decide : (op : Op) → Decidable op.WellFormed
  | Op.insert a w _ => WellFormedKey.decide a w
  | Op.remove a w => WellFormedKey.decide a w

instance PayloadOK.decide : (t : patricia_node_t) → Decidable (PayloadOK t)
  | null => isTrue trivial
  | node _ _ p d l r =>
    have := PayloadOK.decide l
    have := PayloadOK.decide r
    (inferInstance : Decidable ((p.isSome = true → d ≠ 0) ∧ PayloadOK l ∧ PayloadOK r))

instance WF.decide : (t : patricia_node_t) → Decidable (WF t)
  | null => isTrue trivial
  | node a b pre d l r =>
    have := WF.decide l
    have := WF.decide r
    (inferInstance : Decidable (a ≠ 0 ∧ (∀ q ∈ pre, q.keyBits.length = b) ∧
      (pre = none → l ≠ null ∧ r ≠ null) ∧
      (∀ x ∈ keysOf l, x[b]? = some false) ∧
      (∀ x ∈ keysOf r, x[b]? = some true) ∧
      (∀ x ∈ keysOf (node a b pre d l r), ∀ y ∈ keysOf (node a b pre d l r), b ≤ lcp x y) ∧
      (l ≠ null → b < bitOf l) ∧ (r ≠ null → b < bitOf r) ∧ WF l ∧ WF r))

instance KeysOK.decide (t : patricia_node_t) : Decidable (KeysOK t) := by
  unfold KeysOK; exact inferInstance

instance TableOK.decide (T : Table) : Decidable (TableOK T) := by
  unfold TableOK; exact inferInstance

/-! ## Sample inputs -/

/-- The IPv4 address `a.b.c.d`. -/
def ipv4 (a b c d : Nat) : IPAddr :=
  { family := IPFamily.IPv4, bits := ((a * 256 + b) * 256 + c) * 256 + d }

/-- The IPv6 address with the given numeric value (`ipv6 1` is `::1`). -/
def ipv6 (n : Nat) : IPAddr :=
  { family := IPFamily.IPv6, bits := n }

/-- The table holding 10.0.0.0/8, 10.10.0.0/16 and 10.10.10.0/24 with the payloads
`A`, `B` and `C`. -/
def routes (A B C : Nat) : Table :=
  (Insert (Insert (Insert emptyTable (ipv4 10 0 0 0) 8 A).1 (ipv4 10 10 0 0) 16 B).1
    (ipv4 10 10 10 0) 24 C).1

/-- A tree written out by hand: a root without a key, its left child holding a key
and payload 5 with one child of its own (payload 7), its right child a leaf with
payload 6. -/
def sampleTree : patricia_node_t :=
  node 4 6 none 0
    (node 1 7 (some (MakePrefix (ipv4 8 0 0 0) 6)) 5
      (node 3 9 (some (MakePrefix (ipv4 8 0 0 0) 8)) 7 null null) null)
    (node 2 9 (some (MakePrefix (ipv4 12 0 0 0) 8)) 6 null null)

/-- A table whose trie has a structural root without a key above two key-holding
leaves (10.0.0.0/8 and 11.0.0.0/8). -/
def forked : Table :=
  (Insert (Insert emptyTable (ipv4 10 0 0 0) 8 5).1 (ipv4 11 0 0 0) 8 6).1

/-! ### Iterator lemmas -/

theorem preorder_eq_nil {t : patricia_node_t} : preorder t = [] ↔ t = null := by
  cases t <;> simp [preorder]

theorem isNull_iff {t : patricia_node_t} : t.isNull = true ↔ t = null := by
  cases t <;> simp [isNull]

theorem body_null (i : iterator) (h : i.Xrn = null) :
    GetNext.body i = ({ i with Xnode := null }, some 0) := by
  simp [GetNext.body, h]

theorem body_node (i : iterator) (hi : IterOK i) (a b : Nat) (p : Option prefix_t) (d : Nat)
    (l r : patricia_node_t) (h : i.Xrn = node a b p d l r) :
    (GetNext.body i).2 = (if p.isSome then some d else none) ∧
    IterOK (GetNext.body i).1 ∧
    toVisit i = node a b p d l r :: toVisit (GetNext.body i).1 := by
  obtain ⟨hs, _⟩ := hi
  cases l with
  | node la lb lp ld ll lr =>
    cases r with
    | node ra rb rp rd rl rr =>
      refine ⟨by simp [GetNext.body, h], ⟨?_, ?_⟩, ?_⟩
      · intro s hs2
        simp [GetNext.body, h, isNull] at hs2
        rcases hs2 with rfl | hs2
        · simp
        · exact hs s hs2
      · simp [GetNext.body, h, isNull]
      · simp [GetNext.body, h, isNull, toVisit, preorder, stackNodes, List.append_assoc]
    | null =>
      refine ⟨by simp [GetNext.body, h], ⟨?_, ?_⟩, ?_⟩
      · intro s hs2
        simp [GetNext.body, h, isNull] at hs2
        exact hs s hs2
      · simp [GetNext.body, h, isNull]
      · simp [GetNext.body, h, isNull, toVisit, preorder]
  | null =>
    cases r with
    | node ra rb rp rd rl rr =>
      refine ⟨by simp [GetNext.body, h], ⟨?_, ?_⟩, ?_⟩
      · intro s hs2
        simp [GetNext.body, h, isNull] at hs2
        exact hs s hs2
      · simp [GetNext.body, h, isNull]
      · simp [GetNext.body, h, isNull, toVisit, preorder]
    | null =>
      cases hst : i.Xstack with
      | nil =>
        refine ⟨by simp [GetNext.body, h], ⟨?_, ?_⟩, ?_⟩
        · simp [GetNext.body, h, isNull, hst]
        · simp [GetNext.body, h, isNull, hst]
        · simp [GetNext.body, h, isNull, hst, toVisit, preorder, stackNodes]
      | cons top rest =>
        refine ⟨by simp [GetNext.body, h], ⟨?_, ?_⟩, ?_⟩
        · intro s hs2
          simp [GetNext.body, h, isNull, hst] at hs2
          exact hs s (by simp [hst, hs2])
        · intro hn
          simp [GetNext.body, h, isNull, hst] at hn
          exact absurd hn (hs top (by simp [hst]))
        · simp [GetNext.body, h, isNull, hst, toVisit, preorder, stackNodes]

theorem toVisit_null (i : iterator) (hi : IterOK i) (h : i.Xrn = null) : toVisit i = [] := by
  simp [toVisit, h, hi.2 h, preorder, stackNodes]

theorem loop_spec (n : Nat) : ∀ (i : iterator), IterOK i → (toVisit i).length ≤ n →
    ∀ fuel, n + 1 ≤ fuel →
      ∃ r, GetNext.loop fuel i = some r ∧ r.2 = (pend i).headD 0 ∧
        pend r.1 = (pend i).tail ∧ IterOK r.1 := by
  induction n with
  | zero =>
    intro i hi hlen fuel hf
    obtain ⟨f, rfl⟩ : ∃ f, fuel = f + 1 := ⟨fuel - 1, by omega⟩
    have hnil : toVisit i = [] := List.length_eq_zero.mp (by omega)
    have hrn : i.Xrn = null := by
      have : preorder i.Xrn = [] := by
        have := hnil
        simp only [toVisit, List.append_eq_nil] at this
        exact this.1
      exact preorder_eq_nil.mp this
    refine ⟨({ i with Xnode := null }, 0), by simp only [GetNext.loop, body_null i hrn],
      by simp [pend, hnil], ?_, hi⟩
    have : toVisit { i with Xnode := null } = toVisit i := rfl
    simp [pend, this, hnil]
  | succ n ih =>
    intro i hi hlen fuel hf
    obtain ⟨f, rfl⟩ : ∃ f, fuel = f + 1 := ⟨fuel - 1, by omega⟩
    cases hrn : i.Xrn with
    | null =>
      have hnil := toVisit_null i hi hrn
      refine ⟨({ i with Xnode := null }, 0), by simp only [GetNext.loop, body_null i hrn],
        by simp [pend, hnil], ?_, hi⟩
      have : toVisit { i with Xnode := null } = toVisit i := rfl
      simp [pend, this, hnil]
    | node a b p d l r =>
      obtain ⟨h2, hok, hvis⟩ := body_node i hi a b p d l r hrn
      cases hp : p with
      | some q =>
        have hb : GetNext.body i = ((GetNext.body i).1, some d) := by
          rw [Prod.ext_iff]; simp [h2, hp]
        refine ⟨((GetNext.body i).1, d), ?_, ?_, ?_, hok⟩
        · simp only [GetNext.loop]
          rw [hb]
        · simp [pend, hvis, hasPfx, dataOf, hp]
        · simp [pend, hvis, hasPfx, dataOf, hp]
      | none =>
        have hb : GetNext.body i = ((GetNext.body i).1, none) := by
          rw [Prod.ext_iff]; simp [h2, hp]
        have hlen2 : (toVisit (GetNext.body i).1).length ≤ n := by
          rw [hvis] at hlen; simpa using hlen
        have hpend : pend i = pend (GetNext.body i).1 := by
          simp [pend, hvis, hasPfx, hp]
        obtain ⟨r, hr1, hr2⟩ := ih _ hok hlen2 f (by omega)
        refine ⟨r, ?_, ?_⟩
        · simp only [GetNext.loop]
          rw [hb]
          exact hr1
        · rw [hpend]; exact hr2

theorem loop_more_fuel (f : Nat) : ∀ (i : iterator) (r : iterator × Nat),
    GetNext.loop f i = some r → ∀ g, f ≤ g → GetNext.loop g i = some r := by
  induction f with
  | zero => intro i r h; simp [GetNext.loop] at h
  | succ f ih =>
    intro i r h g hg
    obtain ⟨g2, rfl⟩ : ∃ g2, g = g2 + 1 := ⟨g - 1, by omega⟩
    simp only [GetNext.loop] at h ⊢
    cases hb : GetNext.body i with
    | mk i2 o =>
      rw [hb] at h
      cases o with
      | some v => exact h
      | none => exact ih i2 r h g2 (by omega)

/-- The loop of `GetNext` returns: within one pass per node still to visit plus one, and
with the same result for every larger number of passes. -/
theorem GetNext_returns (i : iterator) (hi : IterOK i) :
    ∀ fuel, (toVisit i).length + 1 ≤ fuel → GetNext.loop fuel i = some (GetNext i) := by
  intro fuel hf
  obtain ⟨r, hr, _⟩ := loop_spec (toVisit i).length i hi le_rfl _ le_rfl
  have : GetNext i = r := by simp [GetNext, hr]
  rw [this]
  exact loop_more_fuel _ i r hr fuel hf

theorem GetNext_spec (i : iterator) (hi : IterOK i) :
    (GetNext i).2 = (pend i).headD 0 ∧ pend (GetNext i).1 = (pend i).tail ∧
      IterOK (GetNext i).1 := by
  obtain ⟨r, hr, h1, h2, h3⟩ := loop_spec (toVisit i).length i hi le_rfl _ le_rfl
  have : GetNext i = r := by simp [GetNext, hr]
  rw [this]
  exact ⟨h1, h2, h3⟩

theorem IterOK_afterCalls (n : Nat) : ∀ (i : iterator), IterOK i → IterOK (afterCalls n i) := by
  induction n with
  | zero => intro i hi; exact hi
  | succ n ih => intro i hi; exact ih _ (GetNext_spec i hi).2.2

theorem take_append_replicate (vs : List Nat) : ∀ n m, n ≤ m →
    (vs ++ List.replicate m 0).take n = (vs ++ List.replicate n 0).take n := by
  induction vs with
  | nil => intro n m h; simp [List.take_replicate, Nat.min_eq_left h]
  | cons v vs ih =>
    intro n m h
    cases n with
    | zero => simp
    | succ k =>
      simp only [List.cons_append, List.take_succ_cons]
      rw [ih k m (by omega), ih k (k + 1) (by omega)]

theorem drain_spec (n : Nat) : ∀ (i : iterator), IterOK i →
    drain n i = (pend i ++ List.replicate n 0).take n := by
  induction n with
  | zero => intro i _; simp [drain]
  | succ n ih =>
    intro i hi
    obtain ⟨h1, h2, h3⟩ := GetNext_spec i hi
    rw [drain, ih _ h3, h1, h2]
    cases hp : pend i with
    | nil => simp [List.replicate_succ]
    | cons v vs =>
      simp only [List.headD_cons, List.tail_cons, List.cons_append, List.take_succ_cons]
      rw [take_append_replicate vs n (n + 1) (by omega)]

theorem IterOK_init (T : Table) : IterOK (InitIterator T) := by
  simp [IterOK, InitIterator]

theorem pend_init (T : Table) : pend (InitIterator T) = payloads T.tree.head := by
  simp [pend, payloads, toVisit, InitIterator, stackNodes]

theorem preorder_payloadOK (t : patricia_node_t) (h : PayloadOK t) :
    ∀ n ∈ preorder t, hasPfx n = true → dataOf n ≠ 0 := by
  induction t with
  | null => simp [preorder]
  | node a b p d l r ihl ihr =>
    obtain ⟨h1, h2, h3⟩ := h
    intro n hn
    simp only [preorder, List.mem_cons, List.mem_append] at hn
    rcases hn with rfl | hn | hn
    · simpa [hasPfx, dataOf] using h1
    · exact ihl h2 n hn
    · exact ihr h3 n hn

theorem payloads_ne_zero (t : patricia_node_t) (h : PayloadOK t) : ∀ v ∈ payloads t, v ≠ 0 := by
  intro v hv
  simp only [payloads, List.mem_map, List.mem_filter] at hv
  obtain ⟨n, ⟨hn, hp⟩, rfl⟩ := hv
  exact preorder_payloadOK t h n hn hp

/-! ### Depth of the explicit stack -/

theorem subtreeAt_null (p : List Bool) : subtreeAt null p = null := by
  cases p <;> simp [subtreeAt]

theorem subtreeAt_append (t : patricia_node_t) (p q : List Bool) :
    subtreeAt t (p ++ q) = subtreeAt (subtreeAt t p) q := by
  induction p generalizing t with
  | nil => simp [subtreeAt]
  | cons x ps ih =>
    cases t with
    | null => simp [subtreeAt, subtreeAt_null]
    | node a b pf d l r => cases x <;> simp [subtreeAt, ih]

theorem depth_lt_height (t : patricia_node_t) (p : List Bool) (h : subtreeAt t p ≠ null) :
    p.length < height t := by
  induction p generalizing t with
  | nil =>
    cases t with
    | null => simp [subtreeAt] at h
    | node a b pf d l r => simp [height]
  | cons x ps ih =>
    cases t with
    | null => simp [subtreeAt] at h
    | node a b pf d l r =>
      cases x with
      | false =>
        have := ih l (by simpa [subtreeAt] using h)
        simp only [height, List.length_cons]; omega
      | true =>
        have := ih r (by simpa [subtreeAt] using h)
        simp only [height, List.length_cons]; omega

theorem DepthOK_init (T : Table) : DepthOK T.tree.head (InitIterator T) := by
  refine ⟨IterOK_init T, by simp [InitIterator, StackDeep], ?_⟩
  intro _
  exact ⟨[], by simp [subtreeAt, InitIterator]⟩

theorem DepthOK_body (t : patricia_node_t) (i : iterator) (h : DepthOK t i) :
    DepthOK t (GetNext.body i).1 := by
  obtain ⟨hok, hst, hrn⟩ := h
  cases hx : i.Xrn with
  | null =>
    rw [body_null i hx]
    exact ⟨hok, hst, hrn⟩
  | node a b pf d l r =>
    obtain ⟨_, hok2, _⟩ := body_node i hok a b pf d l r hx
    refine ⟨hok2, ?_, ?_⟩
    · obtain ⟨p, hp, hlen⟩ := hrn (by simp [hx])
      cases l with
      | node la lb lp ld ll lr =>
        cases r with
        | node ra rb rp rd rl rr =>
          simp only [GetNext.body, hx, isNull, Bool.not_false, if_true, StackDeep]
          refine ⟨⟨p ++ [true], ?_, by simp; omega⟩, hst⟩
          rw [subtreeAt_append, hp, hx]; simp [subtreeAt]
        | null => simpa [GetNext.body, hx, isNull] using hst
      | null =>
        cases r with
        | node ra rb rp rd rl rr => simpa [GetNext.body, hx, isNull] using hst
        | null =>
          cases hs : i.Xstack with
          | nil => simp [GetNext.body, hx, isNull, hs, StackDeep]
          | cons top rest =>
            rw [hs] at hst
            simpa [GetNext.body, hx, isNull, hs] using hst.2
    · intro hne
      obtain ⟨p, hp, hlen⟩ := hrn (by simp [hx])
      cases l with
      | node la lb lp ld ll lr =>
        refine ⟨p ++ [false], ?_, ?_⟩
        · rw [subtreeAt_append, hp, hx]
          cases r <;> simp [subtreeAt, GetNext.body, hx, isNull]
        · cases r <;> simp [GetNext.body, hx, isNull] <;> omega
      | null =>
        cases r with
        | node ra rb rp rd rl rr =>
          refine ⟨p ++ [true], ?_, ?_⟩
          · rw [subtreeAt_append, hp, hx]; simp [subtreeAt, GetNext.body, hx, isNull]
          · simp [GetNext.body, hx, isNull]; omega
        | null =>
          cases hs : i.Xstack with
          | nil => simp [GetNext.body, hx, isNull, hs] at hne
          | cons top rest =>
            rw [hs] at hst
            obtain ⟨⟨q, hq, hql⟩, _⟩ := hst
            refine ⟨q, ?_, ?_⟩
            · simp [GetNext.body, hx, isNull, hs, hq]
            · simp [GetNext.body, hx, isNull, hs]; omega

theorem DepthOK_afterPasses (t : patricia_node_t) (n : Nat) :
    ∀ i, DepthOK t i → DepthOK t (afterPasses n i) := by
  induction n with
  | zero => intro i h; exact h
  | succ n ih => intro i h; exact ih _ (DepthOK_body t i h)

theorem loop_is_passes (fuel : Nat) : ∀ (i : iterator) (r : iterator × Nat),
    GetNext.loop fuel i = some r → ∃ m, r.1 = afterPasses m i := by
  induction fuel with
  | zero => intro i r h; simp [GetNext.loop] at h
  | succ f ih =>
    intro i r h
    simp only [GetNext.loop] at h
    cases hb : GetNext.body i with
    | mk i2 o =>
      rw [hb] at h
      cases o with
      | some v =>
        simp only [Option.some.injEq] at h
        exact ⟨1, by simp [afterPasses, hb, ← h]⟩
      | none =>
        obtain ⟨m, hm⟩ := ih i2 r h
        exact ⟨m + 1, by simp [afterPasses, hb, hm]⟩

theorem afterPasses_add (m n : Nat) : ∀ i, afterPasses n (afterPasses m i) = afterPasses (m + n) i := by
  induction m with
  | zero => intro i; simp [afterPasses]
  | succ m ih =>
    intro i
    rw [show m + 1 + n = (m + n) + 1 by omega]
    simp [afterPasses, ih]

theorem afterCalls_is_passes (n : Nat) : ∀ (i : iterator), IterOK i →
    ∃ m, afterCalls n i = afterPasses m i := by
  induction n with
  | zero => intro i _; exact ⟨0, rfl⟩
  | succ n ih =>
    intro i hi
    obtain ⟨m1, h1⟩ := loop_is_passes _ i _ (GetNext_returns i hi _ le_rfl)
    obtain ⟨m2, h2⟩ := ih (GetNext i).1 (GetNext_spec i hi).2.2
    refine ⟨m1 + m2, ?_⟩
    rw [afterCalls, h2, h1, afterPasses_add]

theorem DepthOK_bound (t : patricia_node_t) (i : iterator) (h : DepthOK t i) :
    (i.Xrn = null → i.Xstack = []) ∧
    (i.Xrn ≠ null → ∃ p, subtreeAt t p = i.Xrn ∧ i.Xstack.length ≤ p.length ∧
      p.length < height t) ∧
    i.Xstack.length ≤ height t := by
  obtain ⟨hok, _, hrn⟩ := h
  refine ⟨hok.2, ?_, ?_⟩
  · intro hne
    obtain ⟨p, hp, hl⟩ := hrn hne
    exact ⟨p, hp, hl, depth_lt_height t p (by rw [hp]; exact hne)⟩
  · by_cases hne : i.Xrn = null
    · simp [hok.2 hne]
    · obtain ⟨p, hp, hl⟩ := hrn hne
      have := depth_lt_height t p (by rw [hp]; exact hne)
      omega

/-! ### Common prefixes of bit paths -/

theorem lcp_comm (x : List Bool) : ∀ y, lcp x y = lcp y x := by
  induction x with
  | nil => intro y; cases y <;> simp [lcp]
  | cons a xs ih =>
    intro y
    cases y with
    | nil => simp [lcp]
    | cons b ys =>
      simp only [lcp, ih ys]
      by_cases h : a = b
      · simp [h]
      · have h2 : ¬ b = a := fun e => h e.symm
        simp [h, h2]

theorem lcp_self (x : List Bool) : lcp x x = x.length := by
  induction x with
  | nil => simp [lcp]
  | cons a xs ih => simp [lcp, ih]

theorem lcp_le_left (x : List Bool) : ∀ y, lcp x y ≤ x.length := by
  induction x with
  | nil => intro y; simp [lcp]
  | cons a xs ih =>
    intro y
    cases y with
    | nil => simp [lcp]
    | cons b ys =>
      simp only [lcp, List.length_cons]
      split
      · have := ih ys; omega
      · omega

theorem lcp_le_right (x y : List Bool) : lcp x y ≤ y.length := by
  rw [lcp_comm]; exact lcp_le_left y x

theorem lcp_tri (x : List Bool) : ∀ y z, min (lcp x y) (lcp y z) ≤ lcp x z := by
  induction x with
  | nil => intro y z; simp [lcp]
  | cons a xs ih =>
    intro y z
    cases y with
    | nil => simp [lcp]
    | cons b ys =>
      cases z with
      | nil => simp [lcp]
      | cons c zs =>
        simp only [lcp]
        by_cases h1 : a = b
        · by_cases h2 : b = c
          · have := ih ys zs
            simp only [h1, h2, if_true]
            omega
          · have h3 : ¬ a = c := by rw [h1]; exact h2
            simp [h1, h2]
        · simp [h1]

theorem lcp_get (x : List Bool) : ∀ y i, i < lcp x y → x[i]? = y[i]? := by
  induction x with
  | nil => intro y i h; simp [lcp] at h
  | cons a xs ih =>
    intro y i h
    cases y with
    | nil => simp [lcp] at h
    | cons b ys =>
      simp only [lcp] at h
      by_cases hab : a = b
      · simp only [hab, if_true] at h
        cases i with
        | zero => simp [hab]
        | succ j => simpa using ih ys j (by omega)
      · simp [hab] at h

theorem lcp_succ (x : List Bool) : ∀ y i v, i ≤ lcp x y → x[i]? = some v → y[i]? = some v →
    i + 1 ≤ lcp x y := by
  induction x with
  | nil => intro y i v _ h; simp at h
  | cons a xs ih =>
    intro y i v h hx hy
    cases y with
    | nil => simp at hy
    | cons b ys =>
      cases i with
      | zero =>
        simp only [List.getElem?_cons_zero, Option.some.injEq] at hx hy
        simp [lcp, hx, hy]
      | succ j =>
        simp only [lcp] at h ⊢
        by_cases hab : a = b
        · simp only [hab, if_true] at h ⊢
          have := ih ys j v (by omega) (by simpa using hx) (by simpa using hy)
          omega
        · simp [hab] at h

theorem lcp_le_of_ne (x y : List Bool) (i : Nat) (u v : Bool) (hx : x[i]? = some u)
    (hy : y[i]? = some v) (huv : u ≠ v) : lcp x y ≤ i := by
  by_contra hc
  have := lcp_get x y i (by omega)
  rw [hx, hy] at this
  exact huv (Option.some.inj this)

theorem lcp_eq_length_iff (x : List Bool) : ∀ y, lcp x y = x.length ↔ x <+: y := by
  induction x with
  | nil => intro y; simp [lcp]
  | cons a xs ih =>
    intro y
    cases y with
    | nil => simp [lcp]
    | cons b ys =>
      simp only [lcp, List.length_cons, List.cons_prefix_cons]
      by_cases hab : a = b
      · simp [hab, ih ys]
      · simp [hab]

theorem lcp_of_prefixes (x y k : List Bool) (hx : x <+: k) (hy : y <+: k) :
    lcp x y = min x.length y.length := by
  have h1 := (lcp_eq_length_iff x k).mpr hx
  have h2 := (lcp_eq_length_iff y k).mpr hy
  have h3 := lcp_tri x k y
  rw [lcp_comm k y] at h3
  have h4 := lcp_le_left x y
  have h5 := lcp_le_right x y
  omega

theorem getD_eq_of_getElem? (x : List Bool) (i : Nat) (v : Bool) (h : x[i]? = some v) :
    x.getD i false = v := by
  simp [List.getD, h]

theorem getElem?_of_lt (x : List Bool) (i : Nat) (h : i < x.length) :
    x[i]? = some (x.getD i false) := by
  simp [List.getD, List.getElem?_eq_getElem h]

/-! ### Stored keys and the trie invariant -/

theorem entries_node (a b : Nat) (pre : Option prefix_t) (d : Nat) (l r : patricia_node_t) :
    entries (node a b pre d l r) = (pre.map (fun q => (q, d))).toList ++ (entries l ++ entries r) :=
  rfl

theorem mem_entries_node (a b : Nat) (pre : Option prefix_t) (d : Nat) (l r : patricia_node_t)
    (e : prefix_t × Nat) :
    e ∈ entries (node a b pre d l r) ↔ (pre = some e.1 ∧ e.2 = d) ∨ e ∈ entries l ∨ e ∈ entries r := by
  cases pre with
  | none => simp [entries]
  | some q =>
    simp only [entries, Option.map_some', Option.toList_some, List.singleton_append,
      List.mem_cons, List.mem_append, Option.some.injEq]
    constructor
    · rintro (rfl | h)
      · simp
      · exact Or.inr h
    · rintro (⟨h1, h2⟩ | h)
      · left; ext <;> simp [h1, h2]
      · exact Or.inr h

theorem mem_stored_node (a b : Nat) (pre : Option prefix_t) (d : Nat) (l r : patricia_node_t)
    (q : prefix_t) :
    q ∈ stored (node a b pre d l r) ↔ pre = some q ∨ q ∈ stored l ∨ q ∈ stored r := by
  simp only [stored, List.mem_map, mem_entries_node]
  constructor
  · rintro ⟨e, (⟨h1, _⟩ | h | h), rfl⟩
    · exact Or.inl h1
    · exact Or.inr (Or.inl ⟨e, h, rfl⟩)
    · exact Or.inr (Or.inr ⟨e, h, rfl⟩)
  · rintro (h | ⟨e, h, rfl⟩ | ⟨e, h, rfl⟩)
    · exact ⟨(q, d), Or.inl ⟨h, rfl⟩, rfl⟩
    · exact ⟨e, Or.inr (Or.inl h), rfl⟩
    · exact ⟨e, Or.inr (Or.inr h), rfl⟩

theorem mem_keysOf_node (a b : Nat) (pre : Option prefix_t) (d : Nat) (l r : patricia_node_t)
    (x : List Bool) :
    x ∈ keysOf (node a b pre d l r) ↔
      (∃ q, pre = some q ∧ q.keyBits = x) ∨ x ∈ keysOf l ∨ x ∈ keysOf r := by
  simp only [keysOf, List.mem_map, mem_stored_node]
  constructor
  · rintro ⟨q, (h | h | h), rfl⟩
    · exact Or.inl ⟨q, h, rfl⟩
    · exact Or.inr (Or.inl ⟨q, h, rfl⟩)
    · exact Or.inr (Or.inr ⟨q, h, rfl⟩)
  · rintro (⟨q, h, rfl⟩ | ⟨q, h, rfl⟩ | ⟨q, h, rfl⟩)
    · exact ⟨q, Or.inl h, rfl⟩
    · exact ⟨q, Or.inr (Or.inl h), rfl⟩
    · exact ⟨q, Or.inr (Or.inr h), rfl⟩

theorem keysOf_null : keysOf null = [] := rfl

theorem repKey_mem (t : patricia_node_t) (h : WF t) (hn : t ≠ null) : repKey t ∈ keysOf t := by
  induction t with
  | null => exact absurd rfl hn
  | node a b pre d l r ihl _ =>
    cases pre with
    | some q => rw [mem_keysOf_node]; exact Or.inl ⟨q, rfl, rfl⟩
    | none =>
      obtain ⟨_, _, h3, _, _, _, _, _, hl, _⟩ := h
      obtain ⟨hl0, _⟩ := h3 rfl
      have : l.isNull = false := by cases l <;> simp_all [isNull]
      rw [mem_keysOf_node]
      simp only [repKey, this]
      exact Or.inr (Or.inl (ihl hl hl0))

theorem WF_bit_le (t : patricia_node_t) (h : WF t) : ∀ x ∈ keysOf t, bitOf t ≤ x.length := by
  cases t with
  | null => simp [keysOf_null]
  | node a b pre d l r =>
    intro x hx
    obtain ⟨_, _, _, _, _, h6, _⟩ := h
    have := h6 x hx x hx
    rw [lcp_self] at this
    exact this

theorem WF_agree (t : patricia_node_t) (h : WF t) :
    ∀ x ∈ keysOf t, ∀ y ∈ keysOf t, bitOf t ≤ lcp x y := by
  cases t with
  | null => simp [keysOf_null]
  | node a b pre d l r => exact h.2.2.2.2.2.1

/-! ### Positions -/

theorem mem_entries_of_subtreeAt (t : patricia_node_t) : ∀ (pos : List Bool) (q : prefix_t),
    pfxOf (subtreeAt t pos) = some q → (q, dataOf (subtreeAt t pos)) ∈ entries t := by
  induction t with
  | null => intro pos q h; simp [subtreeAt_null, pfxOf] at h
  | node a b pre d l r ihl ihr =>
    intro pos q h
    rw [mem_entries_node]
    cases pos with
    | nil => left; simpa [subtreeAt, pfxOf, dataOf] using h
    | cons x ps =>
      cases x with
      | false => right; left; exact ihl ps q (by simpa [subtreeAt] using h)
      | true => right; right; exact ihr ps q (by simpa [subtreeAt] using h)

/-! ### Exact search -/

theorem searchExact_sound (t : patricia_node_t) : ∀ (k pos : List Bool),
    searchExact t k = some pos → ∃ q, pfxOf (subtreeAt t pos) = some q ∧ q.keyBits = k := by
  induction t with
  | null => intro k pos h; simp [searchExact] at h
  | node a b pre d l r ihl ihr =>
    intro k pos h
    simp only [searchExact] at h
    split at h
    · split at h
      · simp only [Option.map_eq_some'] at h
        obtain ⟨ps, hps, rfl⟩ := h
        simpa [subtreeAt] using ihr k ps hps
      · simp only [Option.map_eq_some'] at h
        obtain ⟨ps, hps, rfl⟩ := h
        simpa [subtreeAt] using ihl k ps hps
    · cases pre with
      | none => simp at h
      | some q =>
        simp only at h
        split at h
        · rename_i hq
          simp only [Option.some.injEq] at h
          subst h
          exact ⟨q, by simp [subtreeAt, pfxOf], hq.2⟩
        · simp at h

theorem searchExact_complete (t : patricia_node_t) (h : WF t) : ∀ k ∈ keysOf t,
    ∃ pos, searchExact t k = some pos := by
  induction t with
  | null => intro k hk; simp [keysOf_null] at hk
  | node a b pre d l r ihl ihr =>
    intro k hk
    obtain ⟨_, h2, _, h4, h5, _, _, _, hl, hr⟩ := h
    rw [mem_keysOf_node] at hk
    rcases hk with ⟨q, rfl, rfl⟩ | hk | hk
    · have hb := h2 q rfl
      exact ⟨[], by simp [searchExact, hb]⟩
    · have hb := h4 k hk
      have hlt : b < k.length := by
        by_contra hc
        rw [List.getElem?_eq_none (by omega)] at hb
        exact absurd hb (by simp)
      obtain ⟨ps, hps⟩ := ihl hl k hk
      have hg := getD_eq_of_getElem? k b false hb
      exact ⟨false :: ps, by simp only [searchExact, hlt, if_true, hg, hps, Option.map_some', Bool.false_eq_true, if_false]⟩
    · have hb := h5 k hk
      have hlt : b < k.length := by
        by_contra hc
        rw [List.getElem?_eq_none (by omega)] at hb
        exact absurd hb (by simp)
      obtain ⟨ps, hps⟩ := ihr hr k hk
      have hg := getD_eq_of_getElem? k b true hb
      exact ⟨true :: ps, by simp only [searchExact, hlt, if_true, hg, hps, Option.map_some']⟩

theorem mem_keysOf_of_subtreeAt (t : patricia_node_t) (pos : List Bool) (q : prefix_t)
    (h : pfxOf (subtreeAt t pos) = some q) : q.keyBits ∈ keysOf t := by
  have := mem_entries_of_subtreeAt t pos q h
  simp only [keysOf, stored, List.mem_map]
  exact ⟨q, ⟨_, this, rfl⟩, rfl⟩

theorem searchExact_none_iff (t : patricia_node_t) (h : WF t) (k : List Bool) :
    searchExact t k = none ↔ k ∉ keysOf t := by
  constructor
  · intro hs hk
    obtain ⟨pos, hp⟩ := searchExact_complete t h k hk
    rw [hs] at hp; exact absurd hp (by simp)
  · intro hk
    cases hs : searchExact t k with
    | none => rfl
    | some pos =>
      obtain ⟨q, hq, rfl⟩ := searchExact_sound t _ pos hs
      exact absurd (mem_keysOf_of_subtreeAt t pos q hq) hk

/-! ### Longest-match search -/

theorem prefix_get (x k : List Bool) (i : Nat) (v : Bool) (h : x <+: k) (hx : x[i]? = some v) :
    k[i]? = some v := by
  have hl : i < x.length := by
    by_contra hc
    rw [List.getElem?_eq_none (by omega)] at hx
    exact absurd hx (by simp)
  have := lcp_get x k i (by rw [(lcp_eq_length_iff x k).mpr h]; exact hl)
  rw [← this, hx]

theorem length_gt_of_get (x : List Bool) (i : Nat) (v : Bool) (hx : x[i]? = some v) :
    i < x.length := by
  by_contra hc
  rw [List.getElem?_eq_none (by omega)] at hx
  exact absurd hx (by simp)

theorem searchBest_spec (t : patricia_node_t) (h : WF t) : ∀ (k : List Bool),
    match searchBest t k with
    | none => ∀ x ∈ keysOf t, ¬ x <+: k
    | some pos => ∃ q, pfxOf (subtreeAt t pos) = some q ∧ q.keyBits <+: k ∧
        ∀ x ∈ keysOf t, x <+: k → x.length ≤ q.keyBits.length := by
  induction t with
  | null => intro k; simp [searchBest, keysOf_null]
  | node a b pre d l r ihl ihr =>
    intro k
    obtain ⟨_, h2, _, h4, h5, _, _, _, hl, hr⟩ := h
    have hleft : ∀ x ∈ keysOf l, x <+: k → b < k.length ∧ k.getD b false = false := by
      intro x hx hp
      have := prefix_get x k b false hp (h4 x hx)
      exact ⟨length_gt_of_get k b false this, getD_eq_of_getElem? k b false this⟩
    have hright : ∀ x ∈ keysOf r, x <+: k → b < k.length ∧ k.getD b false = true := by
      intro x hx hp
      have := prefix_get x k b true hp (h5 x hx)
      exact ⟨length_gt_of_get k b true this, getD_eq_of_getElem? k b true this⟩
    have hown : ∀ q, pre = some q → ∀ x ∈ keysOf l ++ keysOf r, q.keyBits.length ≤ x.length := by
      intro q hq x hx
      rw [h2 q hq]
      rcases List.mem_append.mp hx with hx | hx
      · exact le_of_lt (length_gt_of_get x b false (h4 x hx))
      · exact le_of_lt (length_gt_of_get x b true (h5 x hx))
    -- the result of the descent into the child that the key selects
    have hdeep : ∀ (c : patricia_node_t) (side : Bool), (c = if side then r else l) →
        (b < k.length ∧ k.getD b false = side) →
        match (searchBest c k).map (List.cons side) with
        | none => ∀ x ∈ keysOf l ++ keysOf r, ¬ x <+: k
        | some pos => ∃ q, pfxOf (subtreeAt (node a b pre d l r) pos) = some q ∧ q.keyBits <+: k ∧
            ∀ x ∈ keysOf (node a b pre d l r), x <+: k → x.length ≤ q.keyBits.length := by
      intro c side hc hside
      have ihc : match searchBest c k with
          | none => ∀ x ∈ keysOf c, ¬ x <+: k
          | some pos => ∃ q, pfxOf (subtreeAt c pos) = some q ∧ q.keyBits <+: k ∧
              ∀ x ∈ keysOf c, x <+: k → x.length ≤ q.keyBits.length := by
        cases side with
        | false => simp only [Bool.false_eq_true, if_false] at hc; subst hc; exact ihl hl k
        | true => simp only [if_true] at hc; subst hc; exact ihr hr k
      have hother : ∀ x ∈ keysOf l ++ keysOf r, x <+: k → x ∈ keysOf c := by
        intro x hx hp
        rcases List.mem_append.mp hx with hx | hx
        · have := (hleft x hx hp).2
          rw [hside.2] at this; subst this
          simpa using (by rw [hc]; simpa using hx : x ∈ keysOf c)
        · have := (hright x hx hp).2
          rw [hside.2] at this; subst this
          simpa using (by rw [hc]; simpa using hx : x ∈ keysOf c)
      cases hs : searchBest c k with
      | none =>
        rw [hs] at ihc
        simp only [Option.map_none']
        intro x hx hp
        exact ihc x (hother x hx hp) hp
      | some pos =>
        rw [hs] at ihc
        simp only [Option.map_some']
        obtain ⟨q, hq1, hq2, hq3⟩ := ihc
        refine ⟨q, ?_, hq2, ?_⟩
        · cases side with
          | false => simp only [Bool.false_eq_true, if_false] at hc; subst hc; simpa [subtreeAt] using hq1
          | true => simp only [if_true] at hc; subst hc; simpa [subtreeAt] using hq1
        · intro x hx hp
          rw [mem_keysOf_node] at hx
          have hqmem : q.keyBits ∈ keysOf l ++ keysOf r := by
            have := mem_keysOf_of_subtreeAt c pos q hq1
            cases side with
            | false => simp only [Bool.false_eq_true, if_false] at hc; subst hc; simp [this]
            | true => simp only [if_true] at hc; subst hc; simp [this]
          rcases hx with ⟨q0, hq0, rfl⟩ | hx | hx
          · exact hown q0 hq0 _ hqmem
          · exact hq3 x (hother x (by simp [hx]) hp) hp
          · exact hq3 x (hother x (by simp [hx]) hp) hp
    -- the node's own key, when the descent finds nothing
    have hself : (∀ x ∈ keysOf l ++ keysOf r, ¬ x <+: k) →
        match (match pre with
          | some q => if q.keyBits.isPrefixOf k then some ([] : List Bool) else none
          | none => none) with
        | none => ∀ x ∈ keysOf (node a b pre d l r), ¬ x <+: k
        | some pos => ∃ q, pfxOf (subtreeAt (node a b pre d l r) pos) = some q ∧ q.keyBits <+: k ∧
            ∀ x ∈ keysOf (node a b pre d l r), x <+: k → x.length ≤ q.keyBits.length := by
      intro hno
      cases pre with
      | none =>
        simp only
        intro x hx
        rw [mem_keysOf_node] at hx
        rcases hx with ⟨q0, hq0, _⟩ | hx | hx
        · simp at hq0
        · exact hno x (by simp [hx])
        · exact hno x (by simp [hx])
      | some q =>
        simp only
        by_cases hp : q.keyBits.isPrefixOf k = true
        · simp only [hp, if_true]
          refine ⟨q, by simp [subtreeAt, pfxOf], List.isPrefixOf_iff_prefix.mp hp, ?_⟩
          intro x hx hxp
          rw [mem_keysOf_node] at hx
          rcases hx with ⟨q0, hq0, rfl⟩ | hx | hx
          · simp only [Option.some.injEq] at hq0; rw [hq0]
          · exact absurd hxp (hno x (by simp [hx]))
          · exact absurd hxp (hno x (by simp [hx]))
        · simp only [hp, Bool.false_eq_true, if_false]
          intro x hx hxp
          rw [mem_keysOf_node] at hx
          rcases hx with ⟨q0, hq0, rfl⟩ | hx | hx
          · simp only [Option.some.injEq] at hq0
            subst hq0
            exact hp (List.isPrefixOf_iff_prefix.mpr hxp)
          · exact hno x (by simp [hx]) hxp
          · exact hno x (by simp [hx]) hxp
    simp only [searchBest]
    by_cases hlt : b < k.length
    · simp only [hlt, if_true]
      cases hside : k.getD b false with
      | true =>
        simp only [if_true]
        have hd := hdeep r true (by simp) ⟨hlt, hside⟩
        cases hs : (searchBest r k).map (List.cons true) with
        | none => rw [hs] at hd; exact hself hd
        | some pos => rw [hs] at hd; exact hd
      | false =>
        simp only [Bool.false_eq_true, if_false]
        have hd := hdeep l false (by simp) ⟨hlt, hside⟩
        cases hs : (searchBest l k).map (List.cons false) with
        | none => rw [hs] at hd; exact hself hd
        | some pos => rw [hs] at hd; exact hd
    · simp only [hlt, if_false]
      apply hself
      intro x hx hp
      rcases List.mem_append.mp hx with hx | hx
      · exact hlt (hleft x hx hp).1
      · exact hlt (hright x hx hp).1

/-! ### Overlap search -/

theorem stored_node (a b : Nat) (pre : Option prefix_t) (d : Nat) (l r : patricia_node_t) :
    stored (node a b pre d l r) = pre.toList ++ (stored l ++ stored r) := by
  cases pre <;> simp [stored, entries]

theorem ins_node_eq (nx : Nat) (p : prefix_t) (a b : Nat) (pre : Option prefix_t) (d : Nat)
    (l r : patricia_node_t) :
    ins nx p (node a b pre d l r) =
      if min (lcp p.keyBits (repKey (node a b pre d l r))) b < b then
        if min (lcp p.keyBits (repKey (node a b pre d l r))) b = p.keyBits.length then
          (if (repKey (node a b pre d l r)).getD
              (min (lcp p.keyBits (repKey (node a b pre d l r))) b) false then
            node nx (min (lcp p.keyBits (repKey (node a b pre d l r))) b) (some p) 0 null
              (node a b pre d l r)
          else node nx (min (lcp p.keyBits (repKey (node a b pre d l r))) b) (some p) 0
              (node a b pre d l r) null, [])
        else if p.keyBits.getD (min (lcp p.keyBits (repKey (node a b pre d l r))) b) false then
          (node (nx + 1) (min (lcp p.keyBits (repKey (node a b pre d l r))) b) none 0
            (node a b pre d l r) (newLeaf nx p), [true])
        else
          (node (nx + 1) (min (lcp p.keyBits (repKey (node a b pre d l r))) b) none 0
            (newLeaf nx p) (node a b pre d l r), [false])
      else if p.keyBits.length = b then
        (node a b (if pre.isSome then pre else some p) d l r, [])
      else if p.keyBits.getD b false then
        (node a b pre d l (ins nx p r).1, true :: (ins nx p r).2)
      else
        (node a b pre d (ins nx p l).1 r, false :: (ins nx p l).2) := rfl

theorem stored_null : stored null = [] := rfl

theorem keysOf_newLeaf (nx : Nat) (p : prefix_t) : keysOf (newLeaf nx p) = [p.keyBits] := rfl

theorem stored_newLeaf (nx : Nat) (p : prefix_t) : stored (newLeaf nx p) = [p] := rfl

theorem ins_ne_null (nx : Nat) (p : prefix_t) (t : patricia_node_t) : (ins nx p t).1 ≠ null := by
  cases t with
  | null => simp [ins, newLeaf]
  | node a b pre d l r =>
    rw [ins_node_eq]
    split_ifs <;> simp

theorem ins_bit (nx : Nat) (p : prefix_t) (t : patricia_node_t) (h : t ≠ null) :
    min (lcp p.keyBits (repKey t)) (bitOf t) ≤ bitOf (ins nx p t).1 := by
  cases t with
  | null => exact absurd rfl h
  | node a b pre d l r =>
    rw [ins_node_eq]
    split_ifs <;> simp [bitOf]

/-- The keys stored after the descent of an insertion: those stored before, and the
inserted key unless a key with the same bit path was there. -/
theorem ins_stored (nx : Nat) (p : prefix_t) (t : patricia_node_t) (h : WF t) :
    ∀ q, q ∈ stored (ins nx p t).1 ↔
      (q = p ∧ p.keyBits ∉ keysOf t) ∨ q ∈ stored t := by
  induction t with
  | null => intro q; simp [ins, stored_newLeaf, stored, entries, keysOf]
  | node a b pre d l r ihl ihr =>
    intro q
    have hwf := h
    obtain ⟨_, h2, _, h4, h5, h6, _, _, hl, hr⟩ := h
    have hrep := repKey_mem _ hwf (by simp)
    rw [ins_node_eq]
    by_cases hm : min (lcp p.keyBits (repKey (node a b pre d l r))) b < b
    · -- the key leaves the path above this node: it is not stored below it
      have hnot : p.keyBits ∉ keysOf (node a b pre d l r) := by
        intro hk
        have := h6 _ hk _ hrep
        omega
      rw [if_pos hm]
      split_ifs
      · rw [mem_stored_node nx]
        simp only [Option.some.injEq, stored_null, List.not_mem_nil, false_or]
        constructor
        · rintro (h | h)
          · exact Or.inl ⟨h.symm, hnot⟩
          · exact Or.inr h
        · rintro (⟨h, _⟩ | h)
          · exact Or.inl h.symm
          · exact Or.inr h
      · rw [mem_stored_node nx]
        simp only [Option.some.injEq, stored_null, List.not_mem_nil, or_false]
        constructor
        · rintro (h | h)
          · exact Or.inl ⟨h.symm, hnot⟩
          · exact Or.inr h
        · rintro (⟨h, _⟩ | h)
          · exact Or.inl h.symm
          · exact Or.inr h
      · rw [mem_stored_node (nx + 1), stored_newLeaf]
        simp only [false_or, List.mem_singleton, reduceCtorEq]
        constructor
        · rintro (h | h)
          · exact Or.inr h
          · exact Or.inl ⟨h, hnot⟩
        · rintro (⟨h, _⟩ | h)
          · exact Or.inr h
          · exact Or.inl h
      · rw [mem_stored_node (nx + 1), stored_newLeaf]
        simp only [false_or, List.mem_singleton, reduceCtorEq]
        constructor
        · rintro (h | h)
          · exact Or.inl ⟨h, hnot⟩
          · exact Or.inr h
        · rintro (⟨h, _⟩ | h)
          · exact Or.inl h
          · exact Or.inr h
    · rw [if_neg hm]
      have hge : b ≤ lcp p.keyBits (repKey (node a b pre d l r)) := by omega
      by_cases hlen : p.keyBits.length = b
      · -- the key's own node
        rw [if_pos hlen]
        have hnl : p.keyBits ∉ keysOf l := by
          intro hk
          have := length_gt_of_get _ _ _ (h4 _ hk)
          omega
        have hnr : p.keyBits ∉ keysOf r := by
          intro hk
          have := length_gt_of_get _ _ _ (h5 _ hk)
          omega
        cases pre with
        | some q0 =>
          have hq0 : q0.keyBits = p.keyBits := by
            have h1 : lcp p.keyBits q0.keyBits = p.keyBits.length := by
              have := lcp_le_left p.keyBits q0.keyBits
              simp only [repKey] at hge
              omega
            have hp := (lcp_eq_length_iff _ _).mp h1
            exact (hp.eq_of_length (by rw [hlen, h2 q0 rfl])).symm
          have hin : p.keyBits ∈ keysOf (node a b (some q0) d l r) := by
            rw [mem_keysOf_node]; exact Or.inl ⟨q0, rfl, hq0⟩
          simp only [Option.isSome_some, if_true]
          constructor
          · intro h; exact Or.inr h
          · rintro (⟨_, h⟩ | h)
            · exact absurd hin h
            · exact h
        | none =>
          have hnin : p.keyBits ∉ keysOf (node a b none d l r) := by
            rw [mem_keysOf_node]
            rintro (⟨q0, h, _⟩ | h | h)
            · simp at h
            · exact hnl h
            · exact hnr h
          simp only [Option.isSome_none, Bool.false_eq_true, if_false, mem_stored_node,
            Option.some.injEq, reduceCtorEq, false_or]
          constructor
          · rintro (h | h)
            · exact Or.inl ⟨h.symm, hnin⟩
            · exact Or.inr h
          · rintro (⟨h, _⟩ | h)
            · exact Or.inl h.symm
            · exact Or.inr h
      · rw [if_neg hlen]
        have hlt : b < p.keyBits.length := by
          have := lcp_le_left p.keyBits (repKey (node a b pre d l r))
          omega
        have hkb := getElem?_of_lt p.keyBits b hlt
        have hnown : ¬ ∃ q0, pre = some q0 ∧ q0.keyBits = p.keyBits := by
          rintro ⟨q0, hq0, he⟩
          have := h2 q0 hq0
          rw [he] at this
          omega
        cases hside : p.keyBits.getD b false with
        | true =>
          rw [hside] at hkb
          have hnl : p.keyBits ∉ keysOf l := by
            intro hk
            have := h4 _ hk
            rw [hkb] at this
            simp at this
          have e1 : p.keyBits ∈ keysOf (node a b pre d l r) ↔ p.keyBits ∈ keysOf r := by
            rw [mem_keysOf_node]
            constructor
            · rintro (h | h | h)
              · exact absurd h hnown
              · exact absurd h hnl
              · exact h
            · intro h; exact Or.inr (Or.inr h)
          simp only [if_true]
          rw [mem_stored_node, mem_stored_node, ihr hr q, e1]
          constructor
          · rintro (h | h | h | h)
            · exact Or.inr (Or.inl h)
            · exact Or.inr (Or.inr (Or.inl h))
            · exact Or.inl h
            · exact Or.inr (Or.inr (Or.inr h))
          · rintro (h | h | h | h)
            · exact Or.inr (Or.inr (Or.inl h))
            · exact Or.inl h
            · exact Or.inr (Or.inl h)
            · exact Or.inr (Or.inr (Or.inr h))
        | false =>
          rw [hside] at hkb
          have hnr : p.keyBits ∉ keysOf r := by
            intro hk
            have := h5 _ hk
            rw [hkb] at this
            simp at this
          have e1 : p.keyBits ∈ keysOf (node a b pre d l r) ↔ p.keyBits ∈ keysOf l := by
            rw [mem_keysOf_node]
            constructor
            · rintro (h | h | h)
              · exact absurd h hnown
              · exact h
              · exact absurd h hnr
            · intro h; exact Or.inr (Or.inl h)
          simp only [Bool.false_eq_true, if_false]
          rw [mem_stored_node, mem_stored_node, ihl hl q, e1]
          constructor
          · rintro (h | (h | h) | h)
            · exact Or.inr (Or.inl h)
            · exact Or.inl h
            · exact Or.inr (Or.inr (Or.inl h))
            · exact Or.inr (Or.inr (Or.inr h))
          · rintro (h | h | h | h)
            · exact Or.inr (Or.inl (Or.inl h))
            · exact Or.inl h
            · exact Or.inr (Or.inl (Or.inr h))
            · exact Or.inr (Or.inr h)

/-! ### Insertion keeps the trie invariant -/

theorem ins_keys (nx : Nat) (p : prefix_t) (t : patricia_node_t) (h : WF t) :
    ∀ x, x ∈ keysOf (ins nx p t).1 ↔ x = p.keyBits ∨ x ∈ keysOf t := by
  intro x
  simp only [keysOf, List.mem_map]
  constructor
  · rintro ⟨q, hq, rfl⟩
    rcases (ins_stored nx p t h q).mp hq with ⟨rfl, _⟩ | hq
    · exact Or.inl rfl
    · exact Or.inr ⟨q, hq, rfl⟩
  · rintro (rfl | ⟨q, hq, rfl⟩)
    · by_cases hk : p.keyBits ∈ keysOf t
      · obtain ⟨q, hq, he⟩ := List.mem_map.mp hk
        exact ⟨q, (ins_stored nx p t h q).mpr (Or.inr hq), he⟩
      · exact ⟨p, (ins_stored nx p t h p).mpr (Or.inl ⟨rfl, hk⟩), rfl⟩
    · exact ⟨q, (ins_stored nx p t h q).mpr (Or.inr hq), rfl⟩

theorem WF_node_iff (a b : Nat) (pre : Option prefix_t) (d : Nat) (l r : patricia_node_t) :
    WF (node a b pre d l r) ↔
      (a ≠ 0 ∧ (∀ q ∈ pre, q.keyBits.length = b) ∧
      (pre = none → l ≠ null ∧ r ≠ null) ∧
      (∀ x ∈ keysOf l, x[b]? = some false) ∧
      (∀ x ∈ keysOf r, x[b]? = some true) ∧
      (∀ x ∈ keysOf (node a b pre d l r), ∀ y ∈ keysOf (node a b pre d l r), b ≤ lcp x y) ∧
      (l ≠ null → b < bitOf l) ∧ (r ≠ null → b < bitOf r) ∧ WF l ∧ WF r) := Iff.rfl

theorem mem_keysOf_some (a b : Nat) (p : prefix_t) (d : Nat) (l r : patricia_node_t)
    (x : List Bool) :
    x ∈ keysOf (node a b (some p) d l r) ↔ x = p.keyBits ∨ x ∈ keysOf l ∨ x ∈ keysOf r := by
  rw [mem_keysOf_node]
  constructor
  · rintro (⟨q, hq, rfl⟩ | h)
    · simp only [Option.some.injEq] at hq; exact Or.inl (by rw [hq])
    · exact Or.inr h
  · rintro (rfl | h)
    · exact Or.inl ⟨p, rfl, rfl⟩
    · exact Or.inr h

theorem mem_keysOf_none (a b : Nat) (d : Nat) (l r : patricia_node_t) (x : List Bool) :
    x ∈ keysOf (node a b none d l r) ↔ x ∈ keysOf l ∨ x ∈ keysOf r := by
  rw [mem_keysOf_node]
  constructor
  · rintro (⟨q, hq, _⟩ | h)
    · simp at hq
    · exact h
  · intro h; exact Or.inr h

theorem WF_newLeaf (nx : Nat) (p : prefix_t) (h : nx ≠ 0) : WF (newLeaf nx p) := by
  rw [newLeaf, WF_node_iff]
  refine ⟨h, ?_, by simp, by simp [keysOf_null], by simp [keysOf_null], ?_, by simp, by simp,
    trivial, trivial⟩
  · intro q hq
    simp only [Option.mem_def, Option.some.injEq] at hq
    rw [hq]
  · intro x hx y hy
    rw [mem_keysOf_some] at hx hy
    simp only [keysOf_null, List.not_mem_nil, or_false] at hx hy
    rw [hx, hy, lcp_self]

theorem lcp_all_ge (k rep : List Bool) (b : Nat) (ks : List (List Bool)) (hrep : rep ∈ ks)
    (hag : ∀ x ∈ ks, ∀ y ∈ ks, b ≤ lcp x y) (hge : b ≤ lcp k rep) :
    ∀ x ∈ ks, b ≤ lcp k x := by
  intro x hx
  have h1 := lcp_tri k rep x
  have h2 := hag rep hrep x hx
  omega

theorem lcp_all_eq (k rep : List Bool) (b : Nat) (ks : List (List Bool)) (hrep : rep ∈ ks)
    (hag : ∀ x ∈ ks, ∀ y ∈ ks, b ≤ lcp x y) (hlt : lcp k rep < b) :
    ∀ x ∈ ks, lcp k x = lcp k rep := by
  intro x hx
  have h1 := lcp_tri k rep x
  have h2 := hag rep hrep x hx
  have h3 := lcp_tri k x rep
  have h4 := hag x hx rep hrep
  omega

theorem pairwise_insert (k : List Bool) (ks : List (List Bool)) (m : Nat) (hk : m ≤ k.length)
    (hkx : ∀ x ∈ ks, m ≤ lcp k x) (hxy : ∀ x ∈ ks, ∀ y ∈ ks, m ≤ lcp x y) :
    ∀ x, (x = k ∨ x ∈ ks) → ∀ y, (y = k ∨ y ∈ ks) → m ≤ lcp x y := by
  rintro x (rfl | hx) y (rfl | hy)
  · rw [lcp_self]; exact hk
  · exact hkx y hy
  · rw [lcp_comm]; exact hkx x hx
  · exact hxy x hx y hy

theorem bit_differs (k rep : List Bool) (m : Nat) (hm : lcp k rep = m) (hk : m < k.length)
    (hr : m < rep.length) : rep.getD m false = !(k.getD m false) := by
  have h1 := getElem?_of_lt k m hk
  have h2 := getElem?_of_lt rep m hr
  by_contra hne
  have heq : rep.getD m false = k.getD m false := by
    cases hx : rep.getD m false <;> cases hy : k.getD m false <;> simp_all
  rw [heq] at h2
  have := lcp_succ k rep m _ (by omega) h1 h2
  omega

theorem ins_WF (nx : Nat) (hnx : nx ≠ 0) (p : prefix_t) (t : patricia_node_t) (h : WF t) :
    WF (ins nx p t).1 := by
  induction t with
  | null => exact WF_newLeaf nx p hnx
  | node a b pre d l r ihl ihr =>
    have hwf := h
    obtain ⟨ha, h2, h3, h4, h5, h6, h7, h8, hl, hr⟩ := h
    have hrep := repKey_mem _ hwf (by simp)
    have hreplen : b ≤ (repKey (node a b pre d l r)).length := WF_bit_le _ hwf _ hrep
    rw [ins_node_eq]
    by_cases hm : min (lcp p.keyBits (repKey (node a b pre d l r))) b < b
    · rw [if_pos hm]
      have hlt : lcp p.keyBits (repKey (node a b pre d l r)) < b := by omega
      have hmeq : min (lcp p.keyBits (repKey (node a b pre d l r))) b =
          lcp p.keyBits (repKey (node a b pre d l r)) := by omega
      rw [hmeq]
      generalize hmdef : lcp p.keyBits (repKey (node a b pre d l r)) = m at hlt
      have hall : ∀ x ∈ keysOf (node a b pre d l r), lcp p.keyBits x = m := by
        intro x hx
        rw [← hmdef]
        exact lcp_all_eq _ _ b _ hrep h6 (by omega) x hx
      have hmk : m ≤ p.keyBits.length := by rw [← hmdef]; exact lcp_le_left _ _
      have hxm : ∀ x ∈ keysOf (node a b pre d l r),
          x[m]? = some ((repKey (node a b pre d l r)).getD m false) := by
        intro x hx
        have := h6 x hx _ hrep
        rw [lcp_get x (repKey (node a b pre d l r)) m (by omega)]
        exact getElem?_of_lt (repKey (node a b pre d l r)) m (by omega)
      have hpair : ∀ x, (x = p.keyBits ∨ x ∈ keysOf (node a b pre d l r)) →
          ∀ y, (y = p.keyBits ∨ y ∈ keysOf (node a b pre d l r)) → m ≤ lcp x y :=
        pairwise_insert _ _ m hmk (fun x hx => by rw [hall x hx])
          (fun x hx y hy => by have := h6 x hx y hy; omega)
      by_cases hlen : m = p.keyBits.length
      · rw [if_pos hlen]
        cases hside : (repKey (node a b pre d l r)).getD m false with
        | true =>
          simp only [if_true]
          rw [WF_node_iff]
          refine ⟨hnx, ?_, by simp, by simp [keysOf_null], ?_, ?_, by simp, ?_, trivial, hwf⟩
          · intro q hq
            simp only [Option.mem_def, Option.some.injEq] at hq
            rw [← hq, hlen]
          · intro x hx; rw [hxm x hx, hside]
          · intro x hx y hy
            rw [mem_keysOf_some] at hx hy
            simp only [keysOf_null, List.not_mem_nil, false_or] at hx hy
            exact hpair x hx y hy
          · intro _; exact hlt
        | false =>
          simp only [Bool.false_eq_true, if_false]
          rw [WF_node_iff]
          refine ⟨hnx, ?_, by simp, ?_, by simp [keysOf_null], ?_, ?_, by simp, hwf, trivial⟩
          · intro q hq
            simp only [Option.mem_def, Option.some.injEq] at hq
            rw [← hq, hlen]
          · intro x hx; rw [hxm x hx, hside]
          · intro x hx y hy
            rw [mem_keysOf_some] at hx hy
            simp only [keysOf_null, List.not_mem_nil, or_false] at hx hy
            exact hpair x hx y hy
          · intro _; exact hlt
      · rw [if_neg hlen]
        have hklt : m < p.keyBits.length := by omega
        have hdiff := bit_differs p.keyBits _ m hmdef hklt (by omega)
        have hkm := getElem?_of_lt p.keyBits m hklt
        cases hside : p.keyBits.getD m false with
        | true =>
          rw [hside] at hdiff hkm
          simp only [if_true]
          rw [WF_node_iff]
          refine ⟨by omega, by simp, by simp [newLeaf], ?_, ?_, ?_, ?_, ?_, hwf,
            WF_newLeaf nx p hnx⟩
          · intro x hx; rw [hxm x hx, hdiff]; rfl
          · intro x hx
            rw [keysOf_newLeaf, List.mem_singleton] at hx
            rw [hx, hkm]
          · intro x hx y hy
            rw [mem_keysOf_none, keysOf_newLeaf, List.mem_singleton] at hx hy
            exact hpair x hx.symm y hy.symm
          · intro _; exact hlt
          · intro _; exact hklt
        | false =>
          rw [hside] at hdiff hkm
          simp only [Bool.false_eq_true, if_false]
          rw [WF_node_iff]
          refine ⟨by omega, by simp, by simp [newLeaf], ?_, ?_, ?_, ?_, ?_,
            WF_newLeaf nx p hnx, hwf⟩
          · intro x hx
            rw [keysOf_newLeaf, List.mem_singleton] at hx
            rw [hx, hkm]
          · intro x hx; rw [hxm x hx, hdiff]; rfl
          · intro x hx y hy
            rw [mem_keysOf_none, keysOf_newLeaf, List.mem_singleton] at hx hy
            exact hpair x hx y hy
          · intro _; exact hklt
          · intro _; exact hlt
    · rw [if_neg hm]
      have hge : b ≤ lcp p.keyBits (repKey (node a b pre d l r)) := by omega
      have hkall := lcp_all_ge _ _ b _ hrep h6 hge
      have hkb : b ≤ p.keyBits.length := by
        have := lcp_le_left p.keyBits (repKey (node a b pre d l r)); omega
      have hpair := pairwise_insert _ _ b hkb hkall h6
      by_cases hlen : p.keyBits.length = b
      · rw [if_pos hlen]
        cases pre with
        | some q0 => exact hwf
        | none =>
          simp only [Option.isSome_none, Bool.false_eq_true, if_false]
          rw [WF_node_iff]
          refine ⟨ha, ?_, by simp, h4, h5, ?_, h7, h8, hl, hr⟩
          · intro q hq
            simp only [Option.mem_def, Option.some.injEq] at hq
            rw [← hq, hlen]
          · intro x hx y hy
            rw [mem_keysOf_some] at hx hy
            rw [← mem_keysOf_none a b d] at hx hy
            exact hpair x hx y hy
      · rw [if_neg hlen]
        have hlt : b < p.keyBits.length := by omega
        have hkbit := getElem?_of_lt p.keyBits b hlt
        -- the new child branches below this node
        have hchild : ∀ (c : patricia_node_t) (v : Bool), WF c → (c ≠ null → b < bitOf c) →
            (∀ x ∈ keysOf c, x[b]? = some v) → (∀ x ∈ keysOf c, b ≤ lcp p.keyBits x) →
            p.keyBits.getD b false = v → b < bitOf (ins nx p c).1 := by
          intro c v hc hcb hcv hcl hv
          by_cases hcn : c = null
          · subst hcn; simp [ins, newLeaf, bitOf, hlt]
          · have h1 := ins_bit nx p c hcn
            have h2 := hcb hcn
            have hr := repKey_mem c hc hcn
            rw [hv] at hkbit
            have h3 := lcp_succ p.keyBits (repKey c) b v (hcl _ hr) hkbit (hcv _ hr)
            omega
        cases hside : p.keyBits.getD b false with
        | true =>
          simp only [if_true]
          rw [WF_node_iff]
          refine ⟨ha, h2, ?_, h4, ?_, ?_, h7, ?_, hl, ihr hr⟩
          · intro hp; exact ⟨(h3 hp).1, ins_ne_null nx p r⟩
          · intro x hx
            rw [ins_keys nx p r hr] at hx
            rcases hx with rfl | hx
            · rw [hkbit, hside]
            · exact h5 x hx
          · have hsub : ∀ x, x ∈ keysOf (node a b pre d l (ins nx p r).1) →
                (x = p.keyBits ∨ x ∈ keysOf (node a b pre d l r)) := by
              intro x hx
              rw [mem_keysOf_node] at hx ⊢
              rw [ins_keys nx p r hr] at hx
              rcases hx with h | h | h | h
              · exact Or.inr (Or.inl h)
              · exact Or.inr (Or.inr (Or.inl h))
              · exact Or.inl h
              · exact Or.inr (Or.inr (Or.inr h))
            intro x hx y hy
            exact hpair x (hsub x hx) y (hsub y hy)
          · intro _
            exact hchild r true hr h8 h5
              (fun x hx => hkall x (by rw [mem_keysOf_node]; exact Or.inr (Or.inr hx))) hside
        | false =>
          simp only [Bool.false_eq_true, if_false]
          rw [WF_node_iff]
          refine ⟨ha, h2, ?_, ?_, h5, ?_, ?_, h8, ihl hl, hr⟩
          · intro hp; exact ⟨ins_ne_null nx p l, (h3 hp).2⟩
          · intro x hx
            rw [ins_keys nx p l hl] at hx
            rcases hx with rfl | hx
            · rw [hkbit, hside]
            · exact h4 x hx
          · have hsub : ∀ x, x ∈ keysOf (node a b pre d (ins nx p l).1 r) →
                (x = p.keyBits ∨ x ∈ keysOf (node a b pre d l r)) := by
              intro x hx
              rw [mem_keysOf_node] at hx ⊢
              rw [ins_keys nx p l hl] at hx
              rcases hx with h | (h | h) | h
              · exact Or.inr (Or.inl h)
              · exact Or.inl h
              · exact Or.inr (Or.inr (Or.inl h))
              · exact Or.inr (Or.inr (Or.inr h))
            intro x hx y hy
            exact hpair x (hsub x hx) y (hsub y hy)
          · intro _
            exact hchild l false hl h7 h4
              (fun x hx => hkall x (by rw [mem_keysOf_node]; exact Or.inr (Or.inl hx))) hside

/-! ### Insertion and the exact search -/

theorem searchExact_node_eq (a b : Nat) (pre : Option prefix_t) (d : Nat) (l r : patricia_node_t)
    (k : List Bool) :
    searchExact (node a b pre d l r) k =
      if b < k.length then
        if k.getD b false then (searchExact r k).map (List.cons true)
        else (searchExact l k).map (List.cons false)
      else
        match pre with
        | some q => if b = k.length ∧ q.keyBits = k then some [] else none
        | none => none := rfl

theorem searchExact_newLeaf (nx : Nat) (p : prefix_t) :
    searchExact (newLeaf nx p) p.keyBits = some [] := by
  simp [newLeaf, searchExact_node_eq]

/-- After the descent of an insertion the exact search finds the key at the position
the insertion returned. -/
theorem ins_found (nx : Nat) (p : prefix_t) (t : patricia_node_t) (h : WF t) :
    searchExact (ins nx p t).1 p.keyBits = some (ins nx p t).2 := by
  induction t with
  | null => exact searchExact_newLeaf nx p
  | node a b pre d l r ihl ihr =>
    have hwf := h
    obtain ⟨ha, h2, h3, h4, h5, h6, h7, h8, hl, hr⟩ := h
    rw [ins_node_eq]
    by_cases hm : min (lcp p.keyBits (repKey (node a b pre d l r))) b < b
    · rw [if_pos hm]
      have hmk : min (lcp p.keyBits (repKey (node a b pre d l r))) b ≤ p.keyBits.length := by
        have := lcp_le_left p.keyBits (repKey (node a b pre d l r)); omega
      by_cases hlen : min (lcp p.keyBits (repKey (node a b pre d l r))) b = p.keyBits.length
      · rw [if_pos hlen]
        split_ifs <;> simp [searchExact_node_eq, hlen]
      · rw [if_neg hlen]
        have hklt : min (lcp p.keyBits (repKey (node a b pre d l r))) b < p.keyBits.length := by
          omega
        cases hside : p.keyBits.getD (min (lcp p.keyBits (repKey (node a b pre d l r))) b)
            false with
        | true =>
          simp only [if_true]
          rw [searchExact_node_eq, if_pos hklt, hside]
          simp only [if_true, searchExact_newLeaf, Option.map_some']
        | false =>
          simp only [Bool.false_eq_true, if_false]
          rw [searchExact_node_eq, if_pos hklt, hside]
          simp only [Bool.false_eq_true, if_false, searchExact_newLeaf, Option.map_some']
    · rw [if_neg hm]
      have hge : b ≤ lcp p.keyBits (repKey (node a b pre d l r)) := by omega
      by_cases hlen : p.keyBits.length = b
      · rw [if_pos hlen]
        cases pre with
        | some q0 =>
          have hq0 : q0.keyBits = p.keyBits := by
            have h1 : lcp p.keyBits q0.keyBits = p.keyBits.length := by
              have := lcp_le_left p.keyBits q0.keyBits
              simp only [repKey] at hge
              omega
            have hp := (lcp_eq_length_iff _ _).mp h1
            exact (hp.eq_of_length (by rw [hlen, h2 q0 rfl])).symm
          simp [searchExact_node_eq, hlen, hq0]
        | none => simp [searchExact_node_eq, hlen]
      · rw [if_neg hlen]
        have hlt : b < p.keyBits.length := by
          have := lcp_le_left p.keyBits (repKey (node a b pre d l r)); omega
        cases hside : p.keyBits.getD b false with
        | true =>
          simp only [if_true]
          rw [searchExact_node_eq, if_pos hlt, hside]
          simp only [if_true, ihr hr, Option.map_some']
        | false =>
          simp only [Bool.false_eq_true, if_false]
          rw [searchExact_node_eq, if_pos hlt, hside]
          simp only [Bool.false_eq_true, if_false, ihl hl, Option.map_some']

/-- Inserting a key that the exact search already finds changes nothing and returns
the node found. -/
theorem ins_existing (nx : Nat) (p : prefix_t) (t : patricia_node_t) (h : WF t) :
    ∀ pos, searchExact t p.keyBits = some pos → ins nx p t = (t, pos) := by
  induction t with
  | null => intro pos hs; simp [searchExact] at hs
  | node a b pre d l r ihl ihr =>
    intro pos hs
    have hwf := h
    obtain ⟨ha, h2, h3, h4, h5, h6, h7, h8, hl, hr⟩ := h
    have hrep := repKey_mem _ hwf (by simp)
    have hk : p.keyBits ∈ keysOf (node a b pre d l r) := by
      obtain ⟨q, hq, he⟩ := searchExact_sound _ _ pos hs
      rw [← he]
      exact mem_keysOf_of_subtreeAt _ pos q hq
    have hge : b ≤ lcp p.keyBits (repKey (node a b pre d l r)) := h6 _ hk _ hrep
    have hm : ¬ min (lcp p.keyBits (repKey (node a b pre d l r))) b < b := by omega
    rw [ins_node_eq, if_neg hm]
    rw [searchExact_node_eq] at hs
    by_cases hlt : b < p.keyBits.length
    · rw [if_pos hlt] at hs
      rw [if_neg (by omega)]
      cases hside : p.keyBits.getD b false with
      | true =>
        rw [hside] at hs
        simp only [if_true, Option.map_eq_some'] at hs ⊢
        obtain ⟨ps, hps, rfl⟩ := hs
        rw [ihr hr ps hps]
      | false =>
        rw [hside] at hs
        simp only [Bool.false_eq_true, if_false, Option.map_eq_some'] at hs ⊢
        obtain ⟨ps, hps, rfl⟩ := hs
        rw [ihl hl ps hps]
    · rw [if_neg hlt] at hs
      cases pre with
      | none => simp at hs
      | some q =>
        simp only at hs
        split at hs
        · rename_i hq
          simp only [Option.some.injEq] at hs
          subst hs
          rw [if_pos hq.1.symm]
          simp
        · simp at hs

/-! ### Writing a payload slot -/

theorem setData_entries_fst (t : patricia_node_t) : ∀ (pos : List Bool) (v : Nat),
    stored (setData t pos v) = stored t := by
  induction t with
  | null => intro pos v; rfl
  | node a b pre d l r ihl ihr =>
    intro pos v
    cases pos with
    | nil => simp only [setData, stored_node]
    | cons x ps =>
      cases x with
      | false => simp only [setData, stored_node, ihl]
      | true => simp only [setData, stored_node, ihr]

theorem setData_keysOf (t : patricia_node_t) (pos : List Bool) (v : Nat) :
    keysOf (setData t pos v) = keysOf t := by
  simp only [keysOf, setData_entries_fst]

theorem setData_eq_null (t : patricia_node_t) (pos : List Bool) (v : Nat) :
    setData t pos v = null ↔ t = null := by
  cases t with
  | null => simp [setData]
  | node a b pre d l r =>
    cases pos with
    | nil => simp [setData]
    | cons x ps => cases x <;> simp [setData]

theorem setData_isNull (t : patricia_node_t) (pos : List Bool) (v : Nat) :
    (setData t pos v).isNull = t.isNull := by
  cases t with
  | null => simp [setData]
  | node a b pre d l r =>
    cases pos with
    | nil => simp [setData, isNull]
    | cons x ps => cases x <;> simp [setData, isNull]

theorem setData_bitOf (t : patricia_node_t) (pos : List Bool) (v : Nat) :
    bitOf (setData t pos v) = bitOf t := by
  cases t with
  | null => simp [setData]
  | node a b pre d l r =>
    cases pos with
    | nil => simp [setData, bitOf]
    | cons x ps => cases x <;> simp [setData, bitOf]

theorem setData_repKey (t : patricia_node_t) : ∀ (pos : List Bool) (v : Nat),
    repKey (setData t pos v) = repKey t := by
  induction t with
  | null => intro pos v; rfl
  | node a b pre d l r ihl ihr =>
    intro pos v
    cases pre with
    | some q =>
      cases pos with
      | nil => simp [setData, repKey]
      | cons x ps => cases x <;> simp [setData, repKey]
    | none =>
      cases pos with
      | nil => simp [setData, repKey]
      | cons x ps =>
        cases x with
        | false => simp only [setData, repKey, setData_isNull, ihl, ihr]
        | true => simp only [setData, repKey, setData_isNull, ihl, ihr]

theorem setData_collect (t : patricia_node_t) : ∀ (pos : List Bool) (v : Nat),
    collect (setData t pos v) = collect t := by
  induction t with
  | null => intro pos v; rfl
  | node a b pre d l r ihl ihr =>
    intro pos v
    cases pos with
    | nil => simp only [setData, collect]
    | cons x ps =>
      cases x with
      | false => simp only [setData, collect, ihl]
      | true => simp only [setData, collect, ihr]

theorem setData_WF (t : patricia_node_t) : ∀ (pos : List Bool) (v : Nat),
    WF t → WF (setData t pos v) := by
  induction t with
  | null => intro pos v h; exact h
  | node a b pre d l r ihl ihr =>
    intro pos v h
    obtain ⟨ha, h2, h3, h4, h5, h6, h7, h8, hl, hr⟩ := h
    have hk : ∀ (d2 : Nat) (l2 r2 : patricia_node_t), keysOf l2 = keysOf l →
        keysOf r2 = keysOf r → ∀ x, x ∈ keysOf (node a b pre d2 l2 r2) ↔
          x ∈ keysOf (node a b pre d l r) := by
      intro d2 l2 r2 e1 e2 x
      rw [mem_keysOf_node, mem_keysOf_node, e1, e2]
    cases pos with
    | nil =>
      simp only [setData]
      rw [WF_node_iff]
      refine ⟨ha, h2, h3, h4, h5, ?_, h7, h8, hl, hr⟩
      intro x hx y hy
      exact h6 x ((hk v l r rfl rfl x).mp hx) y ((hk v l r rfl rfl y).mp hy)
    | cons s ps =>
      cases s with
      | false =>
        simp only [setData]
        rw [WF_node_iff]
        refine ⟨ha, h2, ?_, ?_, h5, ?_, ?_, h8, ihl ps v hl, hr⟩
        · intro hp
          exact ⟨fun e => (h3 hp).1 ((setData_eq_null l ps v).mp e), (h3 hp).2⟩
        · rw [setData_keysOf]; exact h4
        · intro x hx y hy
          exact h6 x ((hk d _ r (setData_keysOf l ps v) rfl x).mp hx) y
            ((hk d _ r (setData_keysOf l ps v) rfl y).mp hy)
        · intro hn
          rw [setData_bitOf]
          exact h7 (fun e => hn ((setData_eq_null l ps v).mpr e))
      | true =>
        simp only [setData]
        rw [WF_node_iff]
        refine ⟨ha, h2, ?_, h4, ?_, ?_, h7, ?_, hl, ihr ps v hr⟩
        · intro hp
          exact ⟨(h3 hp).1, fun e => (h3 hp).2 ((setData_eq_null r ps v).mp e)⟩
        · rw [setData_keysOf]; exact h5
        · intro x hx y hy
          exact h6 x ((hk d l _ rfl (setData_keysOf r ps v) x).mp hx) y
            ((hk d l _ rfl (setData_keysOf r ps v) y).mp hy)
        · intro hn
          rw [setData_bitOf]
          exact h8 (fun e => hn ((setData_eq_null r ps v).mpr e))

theorem setData_searchExact (t : patricia_node_t) : ∀ (pos : List Bool) (v : Nat) (k : List Bool),
    searchExact (setData t pos v) k = searchExact t k := by
  induction t with
  | null => intro pos v k; rfl
  | node a b pre d l r ihl ihr =>
    intro pos v k
    cases pos with
    | nil => simp only [setData, searchExact]
    | cons x ps =>
      cases x with
      | false => simp only [setData, searchExact, ihl]
      | true => simp only [setData, searchExact, ihr]

theorem setData_searchBest (t : patricia_node_t) : ∀ (pos : List Bool) (v : Nat) (k : List Bool),
    searchBest (setData t pos v) k = searchBest t k := by
  induction t with
  | null => intro pos v k; rfl
  | node a b pre d l r ihl ihr =>
    intro pos v k
    cases pos with
    | nil => simp only [setData, searchBest]
    | cons x ps =>
      cases x with
      | false => simp only [setData, searchBest, ihl]
      | true => simp only [setData, searchBest, ihr]

theorem setData_searchAll (t : patricia_node_t) : ∀ (pos : List Bool) (v : Nat) (k : List Bool),
    searchAll (setData t pos v) k = searchAll t k := by
  induction t with
  | null => intro pos v k; rfl
  | node a b pre d l r ihl ihr =>
    intro pos v k
    have hr1 := setData_repKey (node a b pre d l r) pos v
    have hc1 := setData_collect (node a b pre d l r) pos v
    cases pos with
    | nil =>
      simp only [setData] at hr1 hc1
      simp only [setData, searchAll, hr1, hc1]
    | cons x ps =>
      cases x with
      | false =>
        simp only [setData] at hr1 hc1
        simp only [setData, searchAll, ihl, hr1, hc1]
      | true =>
        simp only [setData] at hr1 hc1
        simp only [setData, searchAll, ihr, hr1, hc1]

theorem setData_pfxOf (t : patricia_node_t) : ∀ (pos : List Bool) (v : Nat) (pos2 : List Bool),
    pfxOf (subtreeAt (setData t pos v) pos2) = pfxOf (subtreeAt t pos2) := by
  induction t with
  | null => intro pos v pos2; rfl
  | node a b pre d l r ihl ihr =>
    intro pos v pos2
    cases pos with
    | nil => cases pos2 with
      | nil => simp [setData, subtreeAt, pfxOf]
      | cons y qs => cases y <;> simp [setData, subtreeAt]
    | cons x ps =>
      cases pos2 with
      | nil => cases x <;> simp [setData, subtreeAt, pfxOf]
      | cons y qs => cases x <;> cases y <;> simp [setData, subtreeAt, ihl, ihr]

theorem setData_dataOf (t : patricia_node_t) : ∀ (pos : List Bool) (v : Nat),
    subtreeAt t pos ≠ null → dataOf (subtreeAt (setData t pos v) pos) = v := by
  induction t with
  | null => intro pos v h; simp [subtreeAt_null] at h
  | node a b pre d l r ihl ihr =>
    intro pos v h
    cases pos with
    | nil => simp [setData, subtreeAt, dataOf]
    | cons x ps =>
      cases x with
      | false => simpa [setData, subtreeAt] using ihl ps v (by simpa [subtreeAt] using h)
      | true => simpa [setData, subtreeAt] using ihr ps v (by simpa [subtreeAt] using h)

theorem WF_addr_ne_zero (t : patricia_node_t) (h : WF t) : ∀ (pos : List Bool),
    subtreeAt t pos ≠ null → addrOf (subtreeAt t pos) ≠ 0 := by
  induction t with
  | null => intro pos hn; simp [subtreeAt_null] at hn
  | node a b pre d l r ihl ihr =>
    intro pos hn
    cases pos with
    | nil => simpa [subtreeAt, addrOf] using h.1
    | cons x ps =>
      cases x with
      | false => simpa [subtreeAt] using ihl h.2.2.2.2.2.2.2.2.1 ps (by simpa [subtreeAt] using hn)
      | true => simpa [subtreeAt] using ihr h.2.2.2.2.2.2.2.2.2 ps (by simpa [subtreeAt] using hn)

theorem pfx_ne_null (t : patricia_node_t) (q : prefix_t) (h : pfxOf t = some q) : t ≠ null := by
  cases t with
  | null => simp [pfxOf] at h
  | node a b pre d l r => simp

/-- Setting a non-null payload at the node an insertion returned leaves every
key-holding node with a non-null payload. -/
theorem ins_setData_PayloadOK (nx : Nat) (p : prefix_t) (v : Nat) (hv : v ≠ 0)
    (t : patricia_node_t) (h : PayloadOK t) :
    PayloadOK (setData (ins nx p t).1 (ins nx p t).2 v) := by
  induction t with
  | null => simp [ins, newLeaf, setData, PayloadOK, hv]
  | node a b pre d l r ihl ihr =>
    have hn := h
    obtain ⟨h1, hl, hr⟩ := h
    rw [ins_node_eq]
    split_ifs
    · simp only [setData, PayloadOK]; exact ⟨fun _ => hv, trivial, hn⟩
    · simp only [setData, PayloadOK]; exact ⟨fun _ => hv, hn, trivial⟩
    · simp only [setData, newLeaf, PayloadOK]
      exact ⟨by simp, hn, fun _ => hv, trivial, trivial⟩
    · simp only [setData, newLeaf, PayloadOK]
      exact ⟨by simp, ⟨fun _ => hv, trivial, trivial⟩, hn⟩
    · simp only [setData, PayloadOK]; exact ⟨fun _ => hv, hl, hr⟩
    · simp only [setData, PayloadOK]; exact ⟨fun _ => hv, hl, hr⟩
    · simp only [setData, PayloadOK]; exact ⟨h1, hl, ihr hr⟩
    · simp only [setData, PayloadOK]; exact ⟨h1, ihl hl, hr⟩

/-! ### Removal -/

theorem collapse_some (a b : Nat) (q : prefix_t) (d : Nat) (l r : patricia_node_t) :
    collapse (node a b (some q) d l r) = node a b (some q) d l r := rfl

theorem collapse_none (a b : Nat) (d : Nat) (l r : patricia_node_t) :
    collapse (node a b none d l r) =
      if l.isNull then r else if r.isNull then l else node a b none d l r := rfl

theorem collapse_stored (t : patricia_node_t) : stored (collapse t) = stored t := by
  cases t with
  | null => rfl
  | node a b pre d l r =>
    cases pre with
    | some q => rfl
    | none =>
      rw [collapse_none]
      cases l with
      | null => simp [isNull, stored_node, stored_null]
      | node la lb lp ld ll lr =>
        cases r with
        | null => simp [isNull, stored_node, stored_null]
        | node ra rb rp rd rl rr => simp [isNull]

theorem collapse_PayloadOK (t : patricia_node_t) (h : PayloadOK t) : PayloadOK (collapse t) := by
  cases t with
  | null => exact h
  | node a b pre d l r =>
    cases pre with
    | some q => exact h
    | none =>
      rw [collapse_none]
      split_ifs
      · exact h.2.2
      · exact h.2.1
      · exact h

theorem WF_collapse (a b : Nat) (pre : Option prefix_t) (d : Nat) (l r : patricia_node_t)
    (ha : a ≠ 0) (h2 : ∀ q ∈ pre, q.keyBits.length = b)
    (h4 : ∀ x ∈ keysOf l, x[b]? = some false) (h5 : ∀ x ∈ keysOf r, x[b]? = some true)
    (h6 : ∀ x ∈ keysOf (node a b pre d l r), ∀ y ∈ keysOf (node a b pre d l r), b ≤ lcp x y)
    (h7 : l ≠ null → b < bitOf l) (h8 : r ≠ null → b < bitOf r) (hl : WF l) (hr : WF r) :
    WF (collapse (node a b pre d l r)) ∧
      (collapse (node a b pre d l r) ≠ null → b ≤ bitOf (collapse (node a b pre d l r))) := by
  cases pre with
  | some q =>
    rw [collapse_some]
    exact ⟨(WF_node_iff _ _ _ _ _ _).mpr ⟨ha, h2, by simp, h4, h5, h6, h7, h8, hl, hr⟩,
      fun _ => le_refl b⟩
  | none =>
    rw [collapse_none]
    by_cases hln : l = null
    · subst hln
      simp only [isNull, if_true]
      exact ⟨hr, fun hn => le_of_lt (h8 hn)⟩
    · have hli : l.isNull = false := by cases l <;> simp_all [isNull]
      by_cases hrn : r = null
      · subst hrn
        rw [hli]
        simp only [isNull, Bool.false_eq_true, if_false, if_true]
        exact ⟨hl, fun hn => le_of_lt (h7 hn)⟩
      · have hri : r.isNull = false := by cases r <;> simp_all [isNull]
        simp only [hli, hri, Bool.false_eq_true, if_false]
        exact ⟨(WF_node_iff _ _ _ _ _ _).mpr
          ⟨ha, h2, fun _ => ⟨hln, hrn⟩, h4, h5, h6, h7, h8, hl, hr⟩, fun _ => le_refl b⟩

theorem removeAt_null (pos : List Bool) : removeAt null pos = null := by
  cases pos <;> rfl

theorem removeAt_subset (t : patricia_node_t) : ∀ (pos : List Bool),
    ∀ q ∈ stored (removeAt t pos), q ∈ stored t := by
  induction t with
  | null => intro pos q hq; rw [removeAt_null] at hq; exact hq
  | node a b pre d l r ihl ihr =>
    intro pos q hq
    cases pos with
    | nil =>
      simp only [removeAt, collapse_stored] at hq
      rw [mem_stored_node] at hq ⊢
      rcases hq with h | h
      · simp at h
      · exact Or.inr h
    | cons s ps =>
      cases s with
      | false =>
        simp only [removeAt, collapse_stored] at hq
        rw [mem_stored_node] at hq ⊢
        rcases hq with h | h | h
        · exact Or.inl h
        · exact Or.inr (Or.inl (ihl ps q h))
        · exact Or.inr (Or.inr h)
      | true =>
        simp only [removeAt, collapse_stored] at hq
        rw [mem_stored_node] at hq ⊢
        rcases hq with h | h | h
        · exact Or.inl h
        · exact Or.inr (Or.inl h)
        · exact Or.inr (Or.inr (ihr ps q h))

theorem removeAt_keys_subset (t : patricia_node_t) (pos : List Bool) :
    ∀ x ∈ keysOf (removeAt t pos), x ∈ keysOf t := by
  intro x hx
  simp only [keysOf, List.mem_map] at hx ⊢
  obtain ⟨q, hq, rfl⟩ := hx
  exact ⟨q, removeAt_subset t pos q hq, rfl⟩

theorem removeAt_WF (t : patricia_node_t) (h : WF t) : ∀ (pos : List Bool),
    WF (removeAt t pos) ∧ (removeAt t pos ≠ null → bitOf t ≤ bitOf (removeAt t pos)) := by
  induction t with
  | null => intro pos; rw [removeAt_null]; exact ⟨trivial, fun hn => absurd rfl hn⟩
  | node a b pre d l r ihl ihr =>
    intro pos
    obtain ⟨ha, h2, h3, h4, h5, h6, h7, h8, hl, hr⟩ := h
    cases pos with
    | nil =>
      simp only [removeAt, bitOf]
      apply WF_collapse a b none 0 l r ha (by simp) h4 h5 _ h7 h8 hl hr
      intro x hx y hy
      rw [mem_keysOf_none] at hx hy
      exact h6 x (by rw [mem_keysOf_node]; exact Or.inr hx) y
        (by rw [mem_keysOf_node]; exact Or.inr hy)
    | cons s ps =>
      cases s with
      | false =>
        obtain ⟨ih1, ih2⟩ := ihl hl ps
        have hsub := removeAt_keys_subset l ps
        simp only [removeAt, bitOf]
        apply WF_collapse a b pre d (removeAt l ps) r ha h2 (fun x hx => h4 x (hsub x hx)) h5 _
          _ h8 ih1 hr
        · intro x hx y hy
          rw [mem_keysOf_node] at hx hy
          refine h6 x ?_ y ?_
          · rw [mem_keysOf_node]
            rcases hx with h | h | h
            · exact Or.inl h
            · exact Or.inr (Or.inl (hsub x h))
            · exact Or.inr (Or.inr h)
          · rw [mem_keysOf_node]
            rcases hy with h | h | h
            · exact Or.inl h
            · exact Or.inr (Or.inl (hsub y h))
            · exact Or.inr (Or.inr h)
        · intro hn
          have hl0 : l ≠ null := by
            intro e; rw [e, removeAt_null] at hn; exact hn rfl
          have := h7 hl0
          have := ih2 hn
          omega
      | true =>
        obtain ⟨ih1, ih2⟩ := ihr hr ps
        have hsub := removeAt_keys_subset r ps
        simp only [removeAt, bitOf]
        apply WF_collapse a b pre d l (removeAt r ps) ha h2 h4 (fun x hx => h5 x (hsub x hx)) _
          h7 _ hl ih1
        · intro x hx y hy
          rw [mem_keysOf_node] at hx hy
          refine h6 x ?_ y ?_
          · rw [mem_keysOf_node]
            rcases hx with h | h | h
            · exact Or.inl h
            · exact Or.inr (Or.inl h)
            · exact Or.inr (Or.inr (hsub x h))
          · rw [mem_keysOf_node]
            rcases hy with h | h | h
            · exact Or.inl h
            · exact Or.inr (Or.inl h)
            · exact Or.inr (Or.inr (hsub y h))
        · intro hn
          have hr0 : r ≠ null := by
            intro e; rw [e, removeAt_null] at hn; exact hn rfl
          have := h8 hr0
          have := ih2 hn
          omega

theorem removeAt_PayloadOK (t : patricia_node_t) (h : PayloadOK t) : ∀ (pos : List Bool),
    PayloadOK (removeAt t pos) := by
  induction t with
  | null => intro pos; rw [removeAt_null]; trivial
  | node a b pre d l r ihl ihr =>
    intro pos
    obtain ⟨h1, hl, hr⟩ := h
    cases pos with
    | nil => exact collapse_PayloadOK _ ⟨by simp, hl, hr⟩
    | cons s ps =>
      cases s with
      | false => exact collapse_PayloadOK _ ⟨h1, ihl hl ps, hr⟩
      | true => exact collapse_PayloadOK _ ⟨h1, hl, ihr hr ps⟩

/-- The keys stored after the removal of the node the exact search found for `k`:
those stored before whose bit path differs from `k`. -/
theorem removeAt_stored (t : patricia_node_t) (h : WF t) (k : List Bool) : ∀ (pos : List Bool),
    searchExact t k = some pos →
    ∀ q, q ∈ stored (removeAt t pos) ↔ q ∈ stored t ∧ q.keyBits ≠ k := by
  induction t with
  | null => intro pos hs; simp [searchExact] at hs
  | node a b pre d l r ihl ihr =>
    intro pos hs q
    obtain ⟨ha, h2, h3, h4, h5, h6, h7, h8, hl, hr⟩ := h
    have hkl : ∀ q ∈ stored l, q.keyBits[b]? = some false := fun q hq =>
      h4 _ (by simp only [keysOf, List.mem_map]; exact ⟨q, hq, rfl⟩)
    have hkr : ∀ q ∈ stored r, q.keyBits[b]? = some true := fun q hq =>
      h5 _ (by simp only [keysOf, List.mem_map]; exact ⟨q, hq, rfl⟩)
    rw [searchExact_node_eq] at hs
    by_cases hlt : b < k.length
    · rw [if_pos hlt] at hs
      have hkb := getElem?_of_lt k b hlt
      have hown : ∀ q0, pre = some q0 → q0.keyBits ≠ k := by
        intro q0 hq0 he
        have := h2 q0 hq0
        rw [he] at this; omega
      cases hside : k.getD b false with
      | true =>
        rw [hside] at hs hkb
        simp only [if_true, Option.map_eq_some'] at hs
        obtain ⟨ps, hps, rfl⟩ := hs
        simp only [removeAt, collapse_stored]
        rw [mem_stored_node, mem_stored_node, ihr hr ps hps q]
        constructor
        · rintro (h | h | ⟨h, hne⟩)
          · exact ⟨Or.inl h, hown q h⟩
          · refine ⟨Or.inr (Or.inl h), ?_⟩
            intro he
            have := hkl q h
            rw [he, hkb] at this
            simp at this
          · exact ⟨Or.inr (Or.inr h), hne⟩
        · rintro ⟨h | h | h, hne⟩
          · exact Or.inl h
          · exact Or.inr (Or.inl h)
          · exact Or.inr (Or.inr ⟨h, hne⟩)
      | false =>
        rw [hside] at hs hkb
        simp only [Bool.false_eq_true, if_false, Option.map_eq_some'] at hs
        obtain ⟨ps, hps, rfl⟩ := hs
        simp only [removeAt, collapse_stored]
        rw [mem_stored_node, mem_stored_node, ihl hl ps hps q]
        constructor
        · rintro (h | ⟨h, hne⟩ | h)
          · exact ⟨Or.inl h, hown q h⟩
          · exact ⟨Or.inr (Or.inl h), hne⟩
          · refine ⟨Or.inr (Or.inr h), ?_⟩
            intro he
            have := hkr q h
            rw [he, hkb] at this
            simp at this
        · rintro ⟨h | h | h, hne⟩
          · exact Or.inl h
          · exact Or.inr (Or.inl ⟨h, hne⟩)
          · exact Or.inr (Or.inr h)
    · rw [if_neg hlt] at hs
      cases pre with
      | none => simp at hs
      | some q0 =>
        simp only at hs
        split at hs
        · rename_i hq
          simp only [Option.some.injEq] at hs
          subst hs
          simp only [removeAt, collapse_stored]
          rw [mem_stored_node, mem_stored_node]
          constructor
          · rintro (h | h | h)
            · simp at h
            · refine ⟨Or.inr (Or.inl h), ?_⟩
              intro he
              have := length_gt_of_get _ _ _ (hkl q h)
              rw [he] at this; omega
            · refine ⟨Or.inr (Or.inr h), ?_⟩
              intro he
              have := length_gt_of_get _ _ _ (hkr q h)
              rw [he] at this; omega
          · rintro ⟨h | h | h, hne⟩
            · simp only [Option.some.injEq] at h
              rw [← h] at hne
              exact absurd hq.2 hne
            · exact Or.inr (Or.inl h)
            · exact Or.inr (Or.inr h)
        · simp at hs

/-! ### Keys and their bit paths -/

theorem map_range_prefix (f g : Nat → Bool) (n m : Nat) :
    (List.range n).map f <+: (List.range m).map g ↔ n ≤ m ∧ ∀ i, i < n → f i = g i := by
  constructor
  · intro h
    have hle : n ≤ m := by simpa using h.length_le
    refine ⟨hle, fun i hi => ?_⟩
    have h1 : ((List.range n).map f)[i]? = some (f i) := by
      simp [List.getElem?_range hi]
    have h2 := prefix_get _ _ i (f i) h h1
    have h3 : ((List.range m).map g)[i]? = some (g i) := by
      simp [List.getElem?_range (show i < m by omega)]
    rw [h3] at h2
    exact (Option.some.inj h2).symm
  · rintro ⟨hle, hfg⟩
    obtain ⟨c, rfl⟩ : ∃ c, m = n + c := ⟨m - n, by omega⟩
    rw [List.range_add, List.map_append]
    have : (List.range n).map f = (List.range n).map g := by
      apply List.map_congr_left
      intro i hi
      exact hfg i (List.mem_range.mp hi)
    rw [this]
    exact List.prefix_append _ _

theorem family_tag_eq (p q : prefix_t) :
    (p.family == sa_family.AF_INET6) = (q.family == sa_family.AF_INET6) ↔ p.family = q.family := by
  cases hp : p.family <;> cases hq : q.family <;> simp

theorem topBits_length (p : prefix_t) : p.topBits.length = p.bitlen := by
  simp [prefix_t.topBits]

theorem keyBits_length (p : prefix_t) : p.keyBits.length = p.bitlen + 1 := by
  simp [prefix_t.keyBits, topBits_length]

/-- Two keys have the same bit path exactly when they are equal as keys of the data
model. -/
theorem keyBits_eq_iff (p q : prefix_t) : p.keyBits = q.keyBits ↔ sameKey p q := by
  simp only [prefix_t.keyBits, List.cons.injEq, family_tag_eq, sameKey]
  constructor
  · rintro ⟨h1, h2⟩
    refine ⟨h1, ?_, h2⟩
    have := congrArg List.length h2
    rw [topBits_length, topBits_length] at this
    omega
  · rintro ⟨h1, _, h3⟩
    exact ⟨h1, h3⟩

/-- The bit path of `q` is a prefix of the bit path of `k` exactly when `q` contains `k`. -/
theorem keyBits_prefix_iff (q k : prefix_t) : q.keyBits <+: k.keyBits ↔ covers q k := by
  simp only [prefix_t.keyBits, List.cons_prefix_cons, family_tag_eq, covers, prefix_t.topBits,
    map_range_prefix]

theorem MakePrefix_bitlen (a : IPAddr) (w : Int) :
    (MakePrefix a w).bitlen = (w % 65536).toNat := by
  unfold MakePrefix; split <;> rfl

theorem MakePrefix_maxbits (a : IPAddr) (w : Int) :
    (MakePrefix a w).family.maxbits = if a.family = IPFamily.IPv4 then 32 else 128 := by
  unfold MakePrefix; split <;> simp_all [sa_family.maxbits]

/-- For a well-formed key the bit-length stored is the width given, within the bit size
of the family. -/
theorem MakePrefix_wellFormed (a : IPAddr) (w : Int) (h : WellFormedKey a w) :
    ((MakePrefix a w).bitlen : Int) = w ∧
      (MakePrefix a w).bitlen ≤ (MakePrefix a w).family.maxbits := by
  rw [MakePrefix_bitlen, MakePrefix_maxbits]
  unfold WellFormedKey at h
  split_ifs at h ⊢ <;> omega

theorem WF_keys_nodup (t : patricia_node_t) (h : WF t) : (keysOf t).Nodup := by
  induction t with
  | null => simp [keysOf_null]
  | node a b pre d l r ihl ihr =>
    obtain ⟨ha, h2, h3, h4, h5, h6, h7, h8, hl, hr⟩ := h
    have hlr : ∀ x ∈ keysOf l, x ∉ keysOf r := by
      intro x hx hx2
      have h1 := h4 x hx
      rw [h5 x hx2] at h1
      simp at h1
    have hkeys : keysOf (node a b pre d l r) =
        (pre.map prefix_t.keyBits).toList ++ (keysOf l ++ keysOf r) := by
      simp only [keysOf, stored_node, List.map_append]
      cases pre <;> simp
    rw [hkeys]
    have hchildren : (keysOf l ++ keysOf r).Nodup := by
      rw [List.nodup_append]
      exact ⟨ihl hl, ihr hr, fun x hx hx2 => hlr x hx hx2⟩
    cases pre with
    | none => simpa using hchildren
    | some q =>
      simp only [Option.map_some', Option.toList_some, List.singleton_append, List.nodup_cons]
      refine ⟨?_, hchildren⟩
      intro hmem
      have hb := h2 q rfl
      rcases List.mem_append.mp hmem with hx | hx
      · have := length_gt_of_get _ _ _ (h4 _ hx); omega
      · have := length_gt_of_get _ _ _ (h5 _ hx); omega

theorem setData_addrOf (t : patricia_node_t) : ∀ (pos : List Bool) (v : Nat) (pos2 : List Bool),
    addrOf (subtreeAt (setData t pos v) pos2) = addrOf (subtreeAt t pos2) := by
  induction t with
  | null => intro pos v pos2; rfl
  | node a b pre d l r ihl ihr =>
    intro pos v pos2
    cases pos with
    | nil => cases pos2 with
      | nil => simp [setData, subtreeAt, addrOf]
      | cons y qs => cases y <;> simp [setData, subtreeAt]
    | cons x ps =>
      cases pos2 with
      | nil => cases x <;> simp [setData, subtreeAt, addrOf]
      | cons y qs => cases x <;> cases y <;> simp [setData, subtreeAt, ihl, ihr]

/-! ### The table operations -/

theorem Insert_head (T : Table) (a : IPAddr) (w : Int) (d : Nat) :
    (Insert T a w d).1.tree.head =
      setData (ins (maxAddr T.tree.head + 1) (MakePrefix a w) T.tree.head).1
        (ins (maxAddr T.tree.head + 1) (MakePrefix a w) T.tree.head).2
        (if d ≠ 0 then d else addrOf (subtreeAt
          (ins (maxAddr T.tree.head + 1) (MakePrefix a w) T.tree.head).1
          (ins (maxAddr T.tree.head + 1) (MakePrefix a w) T.tree.head).2)) := rfl

theorem Insert_old (T : Table) (a : IPAddr) (w : Int) (d : Nat) :
    (Insert T a w d).2 =
      dataOf (subtreeAt (ins (maxAddr T.tree.head + 1) (MakePrefix a w) T.tree.head).1
        (ins (maxAddr T.tree.head + 1) (MakePrefix a w) T.tree.head).2) := rfl

theorem Lookup_exact_eq (T : Table) (a : IPAddr) (w : Int) :
    Lookup T a w true =
      match searchExact T.tree.head (MakePrefix a w).keyBits with
      | some nd => dataOf (subtreeAt T.tree.head nd)
      | none => 0 := rfl

theorem Lookup_best_eq (T : Table) (a : IPAddr) (w : Int) :
    Lookup T a w false =
      match searchBest T.tree.head (MakePrefix a w).keyBits with
      | some nd => dataOf (subtreeAt T.tree.head nd)
      | none => 0 := rfl

theorem Remove_eq (T : Table) (a : IPAddr) (w : Int) :
    Remove T a w =
      match searchExact T.tree.head (MakePrefix a w).keyBits with
      | none => (T, 0)
      | some nd => ({ tree := { head := removeAt T.tree.head nd } },
          dataOf (subtreeAt T.tree.head nd)) := rfl

/-- The node an insertion returns exists, holds a key with the bit path of the inserted
key and has a non-null address. -/
theorem ins_node (nx : Nat) (hnx : nx ≠ 0) (p : prefix_t) (t : patricia_node_t) (h : WF t) :
    (∃ q, pfxOf (subtreeAt (ins nx p t).1 (ins nx p t).2) = some q ∧ q.keyBits = p.keyBits) ∧
    subtreeAt (ins nx p t).1 (ins nx p t).2 ≠ null ∧
    addrOf (subtreeAt (ins nx p t).1 (ins nx p t).2) ≠ 0 := by
  obtain ⟨q, hq, he⟩ := searchExact_sound _ _ _ (ins_found nx p t h)
  have hn := pfx_ne_null _ q hq
  exact ⟨⟨q, hq, he⟩, hn, WF_addr_ne_zero _ (ins_WF nx hnx p t h) _ hn⟩

theorem Insert_stored (T : Table) (a : IPAddr) (w : Int) (d : Nat) (h : WF T.tree.head) :
    ∀ q, q ∈ stored (Insert T a w d).1.tree.head ↔
      (q = MakePrefix a w ∧ (MakePrefix a w).keyBits ∉ keysOf T.tree.head) ∨
        q ∈ stored T.tree.head := by
  intro q
  rw [Insert_head, setData_entries_fst]
  exact ins_stored _ _ _ h q

theorem Insert_keys (T : Table) (a : IPAddr) (w : Int) (d : Nat) (h : WF T.tree.head) :
    ∀ x, x ∈ keysOf (Insert T a w d).1.tree.head ↔
      x = (MakePrefix a w).keyBits ∨ x ∈ keysOf T.tree.head := by
  intro x
  rw [Insert_head, setData_keysOf]
  exact ins_keys _ _ _ h x

theorem TableOK_empty : TableOK emptyTable := by
  refine ⟨trivial, ?_, trivial⟩
  intro q hq
  simp [emptyTable, New_Patricia, stored, entries] at hq

theorem TableOK_Insert (T : Table) (a : IPAddr) (w : Int) (d : Nat) (h : TableOK T)
    (hk : WellFormedKey a w) : TableOK (Insert T a w d).1 := by
  obtain ⟨hwf, hkeys, hpay⟩ := h
  refine ⟨?_, ?_, ?_⟩
  · rw [Insert_head]
    exact setData_WF _ _ _ (ins_WF _ (Nat.succ_ne_zero _) _ _ hwf)
  · intro q hq
    rcases (Insert_stored T a w d hwf q).mp hq with ⟨rfl, _⟩ | hq
    · exact (MakePrefix_wellFormed a w hk).2
    · exact hkeys q hq
  · rw [Insert_head]
    apply ins_setData_PayloadOK _ _ _ _ _ hpay
    have := (ins_node (maxAddr T.tree.head + 1) (Nat.succ_ne_zero _) (MakePrefix a w) T.tree.head hwf).2.2
    split_ifs with hd
    · exact hd
    · exact this

theorem TableOK_Remove (T : Table) (a : IPAddr) (w : Int) (h : TableOK T) :
    TableOK (Remove T a w).1 := by
  obtain ⟨hwf, hkeys, hpay⟩ := h
  rw [Remove_eq]
  cases hs : searchExact T.tree.head (MakePrefix a w).keyBits with
  | none => exact ⟨hwf, hkeys, hpay⟩
  | some pos =>
    refine ⟨(removeAt_WF _ hwf pos).1, ?_, removeAt_PayloadOK _ hpay pos⟩
    intro q hq
    exact hkeys q (removeAt_subset _ pos q hq)

theorem Remove_stored (T : Table) (a : IPAddr) (w : Int) (h : WF T.tree.head) :
    ∀ q, q ∈ stored (Remove T a w).1.tree.head ↔
      q ∈ stored T.tree.head ∧ q.keyBits ≠ (MakePrefix a w).keyBits := by
  intro q
  rw [Remove_eq]
  cases hs : searchExact T.tree.head (MakePrefix a w).keyBits with
  | none =>
    have hno := (searchExact_none_iff _ h _).mp hs
    constructor
    · intro hq
      refine ⟨hq, fun he => hno ?_⟩
      rw [← he]
      simp only [keysOf, List.mem_map]
      exact ⟨q, hq, rfl⟩
    · exact fun hq => hq.1
  | some pos => exact removeAt_stored _ h _ pos hs q

/-- After `Insert` the exact search finds the key, at a node whose payload slot holds
the payload given, or the node's own address when none was given. -/
theorem Insert_then_search (T : Table) (a : IPAddr) (w : Int) (d : Nat) (h : WF T.tree.head) :
    ∃ pos, searchExact (Insert T a w d).1.tree.head (MakePrefix a w).keyBits = some pos ∧
      subtreeAt (Insert T a w d).1.tree.head pos ≠ null ∧
      addrOf (subtreeAt (Insert T a w d).1.tree.head pos) ≠ 0 ∧
      dataOf (subtreeAt (Insert T a w d).1.tree.head pos) =
        (if d ≠ 0 then d else addrOf (subtreeAt (Insert T a w d).1.tree.head pos)) := by
  have hnx : maxAddr T.tree.head + 1 ≠ 0 := Nat.succ_ne_zero _
  obtain ⟨_, hn, _⟩ := ins_node _ hnx (MakePrefix a w) T.tree.head h
  have hwf2 : WF (Insert T a w d).1.tree.head := by
    rw [Insert_head]; exact setData_WF _ _ _ (ins_WF _ hnx _ _ h)
  have hfound : searchExact (Insert T a w d).1.tree.head (MakePrefix a w).keyBits =
      some (ins (maxAddr T.tree.head + 1) (MakePrefix a w) T.tree.head).2 := by
    rw [Insert_head, setData_searchExact]
    exact ins_found _ _ _ h
  have hdata : dataOf (subtreeAt (Insert T a w d).1.tree.head
      (ins (maxAddr T.tree.head + 1) (MakePrefix a w) T.tree.head).2) =
      (if d ≠ 0 then d else addrOf (subtreeAt
        (ins (maxAddr T.tree.head + 1) (MakePrefix a w) T.tree.head).1
        (ins (maxAddr T.tree.head + 1) (MakePrefix a w) T.tree.head).2)) := by
    rw [Insert_head]
    exact setData_dataOf _ _ _ hn
  have hn2 : subtreeAt (Insert T a w d).1.tree.head
      (ins (maxAddr T.tree.head + 1) (MakePrefix a w) T.tree.head).2 ≠ null := by
    obtain ⟨q, hq, _⟩ := searchExact_sound _ _ _ hfound
    exact pfx_ne_null _ q hq
  have haddr : addrOf (subtreeAt (Insert T a w d).1.tree.head
      (ins (maxAddr T.tree.head + 1) (MakePrefix a w) T.tree.head).2) =
      addrOf (subtreeAt (ins (maxAddr T.tree.head + 1) (MakePrefix a w) T.tree.head).1
        (ins (maxAddr T.tree.head + 1) (MakePrefix a w) T.tree.head).2) := by
    rw [Insert_head]
    exact setData_addrOf _ _ _ _
  refine ⟨_, hfound, hn2, WF_addr_ne_zero _ hwf2 _ hn2, ?_⟩
  rw [hdata, haddr]

/-! ### Histories -/

theorem run_snoc (ops : List Op) (op : Op) : run (ops ++ [op]) = Op.apply (run ops) op := by
  simp [run, List.foldl_append]

theorem TableOK_run (ops : List Op) (h : ∀ op ∈ ops, op.WellFormed) : TableOK (run ops) := by
  induction ops using List.reverseRecOn with
  | nil => exact TableOK_empty
  | append_singleton ops op ih =>
    rw [run_snoc]
    have hprev := ih (fun o ho => h o (by simp [ho]))
    have hop := h op (by simp)
    cases op with
    | insert a w d => exact TableOK_Insert _ a w d hprev hop
    | remove a w => exact TableOK_Remove _ a w hprev

/-- Every bit path stored in a table reached by a history belongs to a key that some
call inserted and no later call removed. -/
theorem run_live (ops : List Op) (h : ∀ op ∈ ops, op.WellFormed) :
    ∀ x ∈ keysOf (run ops).tree.head,
      ∃ (before after : List Op) (a : IPAddr) (w : Int) (d : Nat),
        ops = before ++ Op.insert a w d :: after ∧ (MakePrefix a w).keyBits = x ∧
        ∀ a2 w2, Op.remove a2 w2 ∈ after → (MakePrefix a2 w2).keyBits ≠ x := by
  induction ops using List.reverseRecOn with
  | nil => intro x hx; simp [run, emptyTable, New_Patricia, keysOf_null] at hx
  | append_singleton ops op ih =>
    have hwfs : ∀ o ∈ ops, o.WellFormed := fun o ho => h o (by simp [ho])
    have hprev := ih hwfs
    have hok := TableOK_run ops hwfs
    intro x hx
    rw [run_snoc] at hx
    cases op with
    | insert a w d =>
      simp only [Op.apply] at hx
      rcases (Insert_keys _ a w d hok.1 x).mp hx with rfl | hx
      · exact ⟨ops, [], a, w, d, rfl, rfl, by simp⟩
      · obtain ⟨bf, af, a1, w1, d1, he, hk, hrem⟩ := hprev x hx
        refine ⟨bf, af ++ [Op.insert a w d], a1, w1, d1, by simp [he], hk, ?_⟩
        intro a2 w2 hmem
        simp only [List.mem_append, List.mem_singleton, reduceCtorEq, or_false] at hmem
        exact hrem a2 w2 hmem
    | remove a w =>
      simp only [Op.apply] at hx
      simp only [keysOf, List.mem_map] at hx
      obtain ⟨q, hq, rfl⟩ := hx
      obtain ⟨hq1, hq2⟩ := (Remove_stored _ a w hok.1 q).mp hq
      obtain ⟨bf, af, a1, w1, d1, he, hk, hrem⟩ := hprev q.keyBits
        (by simp only [keysOf, List.mem_map]; exact ⟨q, hq1, rfl⟩)
      refine ⟨bf, af ++ [Op.remove a w], a1, w1, d1, by simp [he], hk, ?_⟩
      intro a2 w2 hmem
      simp only [List.mem_append, List.mem_singleton, Op.remove.injEq] at hmem
      rcases hmem with hmem | ⟨rfl, rfl⟩
      · exact hrem a2 w2 hmem
      · exact fun e => hq2 e.symm

/-! ### Entries with the same key -/

theorem keysOf_eq_entries (t : patricia_node_t) :
    keysOf t = (entries t).map (fun e => e.1.keyBits) := by
  simp [keysOf, stored, List.map_map, Function.comp_def]

theorem entries_key_unique (t : patricia_node_t) (h : WF t) (e1 e2 : prefix_t × Nat)
    (h1 : e1 ∈ entries t) (h2 : e2 ∈ entries t) (hk : e1.1.keyBits = e2.1.keyBits) : e1 = e2 := by
  have hnd := WF_keys_nodup t h
  rw [keysOf_eq_entries] at hnd
  exact List.inj_on_of_nodup_map hnd h1 h2 hk

theorem mem_stored_of_entries (t : patricia_node_t) (q : prefix_t) (d : Nat)
    (h : (q, d) ∈ entries t) : q ∈ stored t := by
  simp only [stored, List.mem_map]
  exact ⟨(q, d), h, rfl⟩

theorem mem_keysOf_of_stored (t : patricia_node_t) (q : prefix_t) (h : q ∈ stored t) :
    q.keyBits ∈ keysOf t := by
  simp only [keysOf, List.mem_map]
  exact ⟨q, h, rfl⟩

/-- The exact search finds nothing exactly when no stored key equals the searched one. -/
theorem search_none_iff_absent (T : Table) (a : IPAddr) (w : Int) (h : TableOK T)
    (hk : WellFormedKey a w) :
    patricia_search_exact T.tree (MakePrefix a w) = none ↔
      ∀ q ∈ stored T.tree.head, ¬ sameKey q (MakePrefix a w) := by
  unfold patricia_search_exact
  rw [searchExact_none_iff _ h.1]
  constructor
  · intro hno q hq hs
    apply hno
    rw [← (keyBits_eq_iff q _).mpr hs]
    exact mem_keysOf_of_stored _ q hq
  · intro hno hmem
    simp only [keysOf, List.mem_map] at hmem
    obtain ⟨q, hq, he⟩ := hmem
    exact hno q hq ((keyBits_eq_iff q _).mp he)

theorem Lookup_after_Remove (T : Table) (a : IPAddr) (w : Int) (h : TableOK T) :
    Lookup (Remove T a w).1 a w true = 0 := by
  have hwf := (TableOK_Remove T a w h).1
  have hno : (MakePrefix a w).keyBits ∉ keysOf (Remove T a w).1.tree.head := by
    intro hmem
    simp only [keysOf, List.mem_map] at hmem
    obtain ⟨q, hq, he⟩ := hmem
    exact ((Remove_stored T a w h.1 q).mp hq).2 he
  rw [Lookup_exact_eq, (searchExact_none_iff _ hwf _).mpr hno]

/-! ### Conversion of keys to `IPPrefix` values -/

theorem take_payloads_end (ps : List Nat) :
    (ps ++ List.replicate (ps.length + 1) 0).take (ps.length + 1) = ps ++ [0] := by
  rw [List.replicate_succ]
  have : ps ++ 0 :: List.replicate ps.length 0 = (ps ++ [0]) ++ List.replicate ps.length 0 := by
    simp
  rw [this]
  have hl : ps.length + 1 = (ps ++ [0]).length := by simp
  rw [hl, List.take_left']
  rfl

/-- C1: for every finite binary tree of trie nodes whose key-holding nodes have non-null
payloads, the calls of `GetNext` after `InitIterator` return the payloads of exactly the
key-holding nodes, each node once, in depth-first pre-order (node, left subtree, right
subtree), key-less nodes being passed through, and then return end (0), also on every
later call; a tree with N key-holding nodes gives N payloads before end, and for the
empty tree the first call returns end; the loop of every one of these calls returns,
within one pass per node still to visit plus one. -/
theorem C1_iteration_preorder (T : Table) (h : PayloadOK T.tree.head) :
    drain ((payloads T.tree.head).length + 1) (InitIterator T) = payloads T.tree.head ++ [0] ∧
    (∀ n, drain n (InitIterator T) = (payloads T.tree.head ++ List.replicate n 0).take n) ∧
    payloads T.tree.head = ((preorder T.tree.head).filter hasPfx).map dataOf ∧
    (payloads T.tree.head).length = ((preorder T.tree.head).filter hasPfx).length ∧
    (∀ v ∈ payloads T.tree.head, v ≠ 0) ∧
    (T.tree.head = null → (GetNext (InitIterator T)).2 = 0) ∧
    (∀ n fuel, (toVisit (afterCalls n (InitIterator T))).length + 1 ≤ fuel →
      GetNext.loop fuel (afterCalls n (InitIterator T)) =
        some (GetNext (afterCalls n (InitIterator T)))) := by
  have hd := fun n => drain_spec n (InitIterator T) (IterOK_init T)
  simp only [pend_init] at hd
  refine ⟨?_, hd, rfl, by simp [payloads], payloads_ne_zero _ h, ?_, ?_⟩
  · rw [hd, take_payloads_end]
  · intro hn
    have := (GetNext_spec (InitIterator T) (IterOK_init T)).1
    rw [this, pend_init, hn]
    rfl
  · intro n fuel hf
    exact GetNext_returns _ (IterOK_afterCalls n _ (IterOK_init T)) fuel hf

/-- C1, at the tree `sampleTree` (a key-less root above a key-holding node with a child
and a leaf): the three payloads come out in pre-order, then end, twice. -/
theorem C1_iteration_preorder_witness :
    PayloadOK sampleTree ∧
    drain 5 (InitIterator { tree := { head := sampleTree } }) = [5, 7, 6, 0, 0] :=
  ⟨by decide, by
    have h := (C1_iteration_preorder { tree := { head := sampleTree } } (by decide)).2.1 5
    rw [h]
    decide⟩

/-- C10: at every pass of the loop of `GetNext` and after every call of it, in an
iteration started by `InitIterator` on any finite binary tree, the number of entries on
the explicit stack is at most the depth of the node about to be visited, which is below
the number of levels of the tree; when no node is left to visit the stack is empty; and
a pass takes an entry off the stack only when the stack is non-empty. -/
theorem C10_stack_bounded (T : Table) (n : Nat) :
    ((afterPasses n (InitIterator T)).Xrn = null → (afterPasses n (InitIterator T)).Xstack = []) ∧
    ((afterPasses n (InitIterator T)).Xrn ≠ null →
      ∃ p, subtreeAt T.tree.head p = (afterPasses n (InitIterator T)).Xrn ∧
        (afterPasses n (InitIterator T)).Xstack.length ≤ p.length ∧
        p.length < height T.tree.head) ∧
    (afterPasses n (InitIterator T)).Xstack.length ≤ height T.tree.head ∧
    ((afterCalls n (InitIterator T)).Xrn ≠ null →
      ∃ p, subtreeAt T.tree.head p = (afterCalls n (InitIterator T)).Xrn ∧
        (afterCalls n (InitIterator T)).Xstack.length ≤ p.length ∧
        p.length < height T.tree.head) ∧
    (afterCalls n (InitIterator T)).Xstack.length ≤ height T.tree.head ∧
    (∀ i : iterator, (GetNext.body i).1.Xstack.length < i.Xstack.length → i.Xstack ≠ []) ∧
    (∀ (i : iterator) (a b : Nat) (pf : Option prefix_t) (d : Nat), i.Xstack = [] →
      i.Xrn = node a b pf d null null →
      (GetNext.body i).1.Xrn = null ∧ (GetNext.body i).1.Xstack = []) := by
  have h1 := DepthOK_bound _ _ (DepthOK_afterPasses T.tree.head n _ (DepthOK_init T))
  obtain ⟨m, hm⟩ := afterCalls_is_passes n (InitIterator T) (IterOK_init T)
  have h2 := DepthOK_bound _ _ (DepthOK_afterPasses T.tree.head m _ (DepthOK_init T))
  rw [← hm] at h2
  refine ⟨h1.1, h1.2.1, h1.2.2, h2.2.1, h2.2.2, ?_, ?_⟩
  · intro i hlt he
    rw [he] at hlt
    simp at hlt
  · intro i a b pf d he hx
    simp [GetNext.body, hx, he, isNull]

/-- C2 (as stated, refuted): with the null payload for `p`, the second `Insert` of the
same key does not return `p`: it returns the address of the key's node. -/
theorem C2_counterexample :
    (Insert (Insert emptyTable (ipv4 10 0 0 0) 8 0).1 (ipv4 10 0 0 0) 8 7).2 ≠ 0 ∧
    Lookup (Insert (Insert emptyTable (ipv4 10 0 0 0) 8 5).1 (ipv4 10 0 0 0) 8 0).1
      (ipv4 10 0 0 0) 8 true ≠ 0 := by
  decide

/-- C2 (amended): for every table state, every well-formed key `k` and all payloads `p`
and `p2`, null or not: after `Insert(k, p)` the key has a node, with a non-null address,
and `Insert(k, p2)` keeps that node and its address and only writes its payload slot.
The second call returns `p` when `p` is not null and the address of the node when `p`
is null; `LookupExact(k)` thereafter returns `p2` when `p2` is not null and the address
of the node when `p2` is null; and `LookupExact(k)` after the first call returns `p`
when `p` is not null and the address of the node when `p` is null. -/
theorem C2_insert_overwrites (T : Table) (a : IPAddr) (w : Int) (p p2 : Nat)
    (hT : TableOK T) (hk : WellFormedKey a w) :
    (∃ pos,
      patricia.search_exact (Insert T a w p).1.tree (MakePrefix a w) = some pos ∧
      patricia.search_exact (Insert (Insert T a w p).1 a w p2).1.tree (MakePrefix a w) =
        some pos ∧
      subtreeAt (Insert T a w p).1.tree.head pos ≠ null ∧
      addrOf (subtreeAt (Insert T a w p).1.tree.head pos) ≠ 0 ∧
      addrOf (subtreeAt (Insert (Insert T a w p).1 a w p2).1.tree.head pos) =
        addrOf (subtreeAt (Insert T a w p).1.tree.head pos) ∧
      (Insert (Insert T a w p).1 a w p2).1.tree.head =
        setData (Insert T a w p).1.tree.head pos
          (if p2 ≠ 0 then p2 else addrOf (subtreeAt (Insert T a w p).1.tree.head pos)) ∧
      (Insert (Insert T a w p).1 a w p2).2 =
        (if p ≠ 0 then p else addrOf (subtreeAt (Insert T a w p).1.tree.head pos)) ∧
      Lookup (Insert (Insert T a w p).1 a w p2).1 a w true =
        (if p2 ≠ 0 then p2 else addrOf (subtreeAt (Insert T a w p).1.tree.head pos)) ∧
      Lookup (Insert T a w p).1 a w true =
        (if p ≠ 0 then p else addrOf (subtreeAt (Insert T a w p).1.tree.head pos))) ∧
    (p ≠ 0 → (Insert (Insert T a w p).1 a w p2).2 = p) ∧
    (p2 ≠ 0 → Lookup (Insert (Insert T a w p).1 a w p2).1 a w true = p2) ∧
    (p ≠ 0 → Lookup (Insert T a w p).1 a w true = p) ∧
    (p = 0 → (Insert (Insert T a w p).1 a w p2).2 ≠ 0 ∧
      (Insert (Insert T a w p).1 a w p2).2 = Lookup (Insert T a w p).1 a w true) ∧
    (p2 = 0 → Lookup (Insert (Insert T a w p).1 a w p2).1 a w true ≠ 0) ∧
    (p = 0 → p2 = 0 → Lookup (Insert (Insert T a w p).1 a w p2).1 a w true =
      (Insert (Insert T a w p).1 a w p2).2) ∧
    stored (Insert (Insert T a w p).1 a w p2).1.tree.head =
      stored (Insert T a w p).1.tree.head := by
  have hT1 := TableOK_Insert T a w p hT hk
  obtain ⟨pos, hs, hn, ha, hd⟩ := Insert_then_search T a w p hT.1
  have hex := ins_existing (maxAddr (Insert T a w p).1.tree.head + 1) (MakePrefix a w)
    (Insert T a w p).1.tree.head hT1.1 pos hs
  have hhead : (Insert (Insert T a w p).1 a w p2).1.tree.head =
      setData (Insert T a w p).1.tree.head pos
        (if p2 ≠ 0 then p2 else addrOf (subtreeAt (Insert T a w p).1.tree.head pos)) := by
    rw [Insert_head, hex]
  have hs2 : searchExact (Insert (Insert T a w p).1 a w p2).1.tree.head
      (MakePrefix a w).keyBits = some pos := by
    rw [hhead, setData_searchExact]; exact hs
  have hold : (Insert (Insert T a w p).1 a w p2).2 =
      (if p ≠ 0 then p else addrOf (subtreeAt (Insert T a w p).1.tree.head pos)) := by
    rw [Insert_old, hex]; exact hd
  have hL2 : Lookup (Insert (Insert T a w p).1 a w p2).1 a w true =
      (if p2 ≠ 0 then p2 else addrOf (subtreeAt (Insert T a w p).1.tree.head pos)) := by
    rw [Lookup_exact_eq, hs2]
    simp only []
    rw [hhead]
    exact setData_dataOf _ pos _ hn
  have hL1 : Lookup (Insert T a w p).1 a w true =
      (if p ≠ 0 then p else addrOf (subtreeAt (Insert T a w p).1.tree.head pos)) := by
    rw [Lookup_exact_eq, hs]; exact hd
  have haddr : addrOf (subtreeAt (Insert (Insert T a w p).1 a w p2).1.tree.head pos) =
      addrOf (subtreeAt (Insert T a w p).1.tree.head pos) := by
    rw [hhead, setData_addrOf]
  refine ⟨⟨pos, hs, hs2, hn, ha, haddr, hhead, hold, hL2, hL1⟩, ?_, ?_, ?_, ?_, ?_, ?_, ?_⟩
  · intro hp; rw [hold, if_pos hp]
  · intro hp2; rw [hL2, if_pos hp2]
  · intro hp; rw [hL1, if_pos hp]
  · intro hp
    have hnp : ¬ p ≠ 0 := fun h => h hp
    rw [hold, hL1, if_neg hnp]
    exact ⟨ha, rfl⟩
  · intro hp2
    have hnp : ¬ p2 ≠ 0 := fun h => h hp2
    rw [hL2, if_neg hnp]
    exact ha
  · intro hp hp2
    have hnp : ¬ p ≠ 0 := fun h => h hp
    have hnp2 : ¬ p2 ≠ 0 := fun h => h hp2
    rw [hL2, hold, if_neg hnp, if_neg hnp2]
  · rw [hhead, setData_entries_fst]

/-- C2 (amended), at the empty table with the key 10.0.0.0/8: with the payloads 5 and 7
the second `Insert` returns 5; with the payloads 5 and null the exact lookup thereafter
returns a non-null value. -/
theorem C2_insert_overwrites_witness :
    TableOK emptyTable ∧ WellFormedKey (ipv4 10 0 0 0) 8 ∧ (5 : Nat) ≠ 0 ∧
    (Insert (Insert emptyTable (ipv4 10 0 0 0) 8 5).1 (ipv4 10 0 0 0) 8 7).2 = 5 ∧
    Lookup (Insert (Insert emptyTable (ipv4 10 0 0 0) 8 5).1 (ipv4 10 0 0 0) 8 0).1
      (ipv4 10 0 0 0) 8 true ≠ 0 :=
  ⟨by decide, by decide, by decide,
    (C2_insert_overwrites emptyTable (ipv4 10 0 0 0) 8 5 7 (by decide) (by decide)).2.1
      (by decide),
    (C2_insert_overwrites emptyTable (ipv4 10 0 0 0) 8 5 0 (by decide) (by decide)).2.2.2.2.2.1
      rfl⟩

/-- C9: for every table state and every well-formed key `k`, after `Insert(k, 0)` the
payload slot of the node of `k` holds the address of that node, which is not null;
`LookupExact(k)` and a following `Remove(k)` return that non-null value; for a key
inserted with a non-null payload they return that payload; and for a key that is not
stored they return 0. -/
theorem C9_three_states (T : Table) (a : IPAddr) (w : Int) (hT : TableOK T)
    (hk : WellFormedKey a w) :
    (∃ pos, patricia_search_exact (Insert T a w 0).1.tree (MakePrefix a w) = some pos ∧
      subtreeAt (Insert T a w 0).1.tree.head pos ≠ null ∧
      dataOf (subtreeAt (Insert T a w 0).1.tree.head pos) =
        addrOf (subtreeAt (Insert T a w 0).1.tree.head pos) ∧
      addrOf (subtreeAt (Insert T a w 0).1.tree.head pos) ≠ 0 ∧
      Lookup (Insert T a w 0).1 a w true = addrOf (subtreeAt (Insert T a w 0).1.tree.head pos) ∧
      (Remove (Insert T a w 0).1 a w).2 =
        addrOf (subtreeAt (Insert T a w 0).1.tree.head pos)) ∧
    Lookup (Insert T a w 0).1 a w true ≠ 0 ∧
    (Remove (Insert T a w 0).1 a w).2 ≠ 0 ∧
    (∀ p, p ≠ 0 → Lookup (Insert T a w p).1 a w true = p ∧
      (Remove (Insert T a w p).1 a w).2 = p) ∧
    ((∀ q ∈ stored T.tree.head, ¬ sameKey q (MakePrefix a w)) →
      Lookup T a w true = 0 ∧ (Remove T a w).2 = 0) := by
  obtain ⟨pos, hs, hn, ha, hd⟩ := Insert_then_search T a w 0 hT.1
  simp only [ne_eq, not_true_eq_false, if_false] at hd
  have hL : Lookup (Insert T a w 0).1 a w true =
      addrOf (subtreeAt (Insert T a w 0).1.tree.head pos) := by
    rw [Lookup_exact_eq, hs]; exact hd
  have hR : (Remove (Insert T a w 0).1 a w).2 =
      addrOf (subtreeAt (Insert T a w 0).1.tree.head pos) := by
    rw [Remove_eq, hs]; exact hd
  refine ⟨⟨pos, hs, hn, hd, ha, hL, hR⟩, by rw [hL]; exact ha, by rw [hR]; exact ha, ?_, ?_⟩
  · intro p hp
    obtain ⟨pos1, hs1, _, _, hd1⟩ := Insert_then_search T a w p hT.1
    rw [if_pos hp] at hd1
    constructor
    · rw [Lookup_exact_eq, hs1]; exact hd1
    · rw [Remove_eq, hs1]; exact hd1
  · intro habs
    have hnone := (search_none_iff_absent T a w hT hk).mpr habs
    unfold patricia_search_exact at hnone
    constructor
    · rw [Lookup_exact_eq, hnone]
    · rw [Remove_eq, hnone]

/-- C9, at the empty table and the key 10.0.0.0/8: the key inserted without a payload
reads back as a non-null value. -/
theorem C9_three_states_witness :
    TableOK emptyTable ∧ WellFormedKey (ipv4 10 0 0 0) 8 ∧
    Lookup (Insert emptyTable (ipv4 10 0 0 0) 8 0).1 (ipv4 10 0 0 0) 8 true ≠ 0 :=
  ⟨by decide, by decide,
    (C9_three_states emptyTable (ipv4 10 0 0 0) 8 (by decide) (by decide)).2.1⟩

/-- C8: for every table state, every key and whatever trie engine the wrapper runs on,
when the exact search finds no node for the key, `Remove` returns 0 and leaves the table
as it was, so that every later `Lookup`, `FindAll` and iteration gives what it gave
before; on the modelled engine, in a well-formed table with a well-formed key, the
search finds no node exactly when no stored key equals the key. -/
theorem C8_remove_absent (E : Engine) (T : Table) (a : IPAddr) (w : Int)
    (h : E.search_exact T.tree (MakePrefix a w) = none) :
    E.Remove T a w = (T, 0) ∧
    (∀ a2 w2 e, E.Lookup (E.Remove T a w).1 a2 w2 e = E.Lookup T a2 w2 e) ∧
    (∀ a2 w2, E.FindAll (E.Remove T a w).1 a2 w2 = E.FindAll T a2 w2) ∧
    (∀ n, drain n (InitIterator (E.Remove T a w).1) = drain n (InitIterator T)) ∧
    (TableOK T → WellFormedKey a w →
      (patricia.search_exact T.tree (MakePrefix a w) = none ↔
        ∀ q ∈ stored T.tree.head, ¬ sameKey q (MakePrefix a w))) := by
  have hR : E.Remove T a w = (T, 0) := by
    simp only [Engine.Remove, h]
  refine ⟨hR, ?_, ?_, ?_, ?_⟩
  · intro a2 w2 e; rw [hR]
  · intro a2 w2; rw [hR]
  · intro n; rw [hR]
  · intro hT hk
    exact search_none_iff_absent T a w hT hk

/-- C8, on the modelled engine, at the table `forked` (10.0.0.0/8 and 11.0.0.0/8) and
the absent key 12.0.0.0/8. -/
theorem C8_remove_absent_witness :
    patricia.search_exact forked.tree (MakePrefix (ipv4 12 0 0 0) 8) = none ∧
    Remove forked (ipv4 12 0 0 0) 8 = (forked, 0) :=
  ⟨by decide, (C8_remove_absent patricia forked (ipv4 12 0 0 0) 8 (by decide)).1⟩

/-- C7: for every tagged input value, and whatever trie engine the wrapper runs on, the
value-taking `Insert`, `Lookup` and `Remove` act as the classification says: a
one-element list stands for its element (unwrapped once); a single address `a` is the
key `(a, 32)` for IPv4 and `(a, 128)` for IPv6; a subnet is the key (its prefix address,
its length); every other value, lists of any other length or of a list included,
returns 0 and leaves the table as it was. -/
theorem C7_value_overloads (E : Engine) (T : Table) (v : Val) (d : Nat) (exact : Bool) :
    E.InsertVal T v d =
      (match classify v with
        | some k => E.Insert T k.1 k.2 d
        | none => (T, 0)) ∧
    E.LookupVal T v exact =
      (match classify v with
        | some k => E.Lookup T k.1 k.2 exact
        | none => 0) ∧
    E.RemoveVal T v =
      (match classify v with
        | some k => E.Remove T k.1 k.2
        | none => (T, 0)) := by
  cases v with
  | addr a => exact ⟨rfl, rfl, rfl⟩
  | subnet s => exact ⟨rfl, rfl, rfl⟩
  | other tag => exact ⟨rfl, rfl, rfl⟩
  | list elems =>
    cases elems with
    | nil => exact ⟨rfl, rfl, rfl⟩
    | cons e rest =>
      cases rest with
      | nil => cases e <;> exact ⟨rfl, rfl, rfl⟩
      | cons e2 rest2 => cases e <;> exact ⟨rfl, rfl, rfl⟩

/-- C3: for every table reached from the empty table by `Insert` and `Remove` calls with
well-formed keys and every well-formed key `k`, `LookupExact(k)` returns a payload only
if a key with the same family, the same bit-length and the same top address bits has
been inserted and not been removed since; `Remove(k)` followed by `LookupExact(k)`
returns no result; and the IPv4 key 0.0.0.1/32 does not match the stored IPv6 key
::1/128, nor the other way round. -/
theorem C3_exact_lookup (ops : List Op) (a : IPAddr) (w : Int)
    (hops : ∀ op ∈ ops, op.WellFormed) (hk : WellFormedKey a w) :
    (Lookup (run ops) a w true ≠ 0 → LiveIn ops (MakePrefix a w)) ∧
    (Lookup (run ops) a w true ≠ 0 →
      ∃ q ∈ stored (run ops).tree.head, sameKey q (MakePrefix a w)) ∧
    Lookup (Remove (run ops) a w).1 a w true = 0 ∧
    Lookup (Insert emptyTable (ipv6 1) 128 7).1 (ipv4 0 0 0 1) 32 true = 0 ∧
    Lookup (Insert emptyTable (ipv4 0 0 0 1) 32 7).1 (ipv6 1) 128 true = 0 := by
  have hT := TableOK_run ops hops
  have hfound : Lookup (run ops) a w true ≠ 0 →
      (MakePrefix a w).keyBits ∈ keysOf (run ops).tree.head := by
    intro hne
    rw [Lookup_exact_eq] at hne
    cases hs : searchExact (run ops).tree.head (MakePrefix a w).keyBits with
    | none => rw [hs] at hne; exact absurd rfl hne
    | some pos =>
      obtain ⟨q, hq, he⟩ := searchExact_sound _ _ pos hs
      rw [← he]
      exact mem_keysOf_of_subtreeAt _ pos q hq
  refine ⟨?_, ?_, Lookup_after_Remove _ a w hT, by decide, by decide⟩
  · intro hne
    obtain ⟨bf, af, a1, w1, d1, he, hkey, hrem⟩ := run_live ops hops _ (hfound hne)
    have hw1 : WellFormedKey a1 w1 := hops (Op.insert a1 w1 d1) (by rw [he]; simp)
    refine ⟨bf, af, a1, w1, d1, he, ?_, ?_⟩
    · exact (keyBits_eq_iff _ _).mp hkey
    · intro a2 w2 hmem hsame
      have hw2 : WellFormedKey a2 w2 := hops (Op.remove a2 w2) (by rw [he]; simp [hmem])
      exact hrem a2 w2 hmem
        ((keyBits_eq_iff _ _).mpr hsame)
  · intro hne
    have hmem := hfound hne
    simp only [keysOf, List.mem_map] at hmem
    obtain ⟨q, hq, he⟩ := hmem
    exact ⟨q, hq, (keyBits_eq_iff _ _).mp he⟩

/-- C3, for the history insert 10.0.0.0/8, remove 10.0.0.0/8, insert 11.0.0.0/8 and the
key 10.0.0.0/8: the exact lookup returns no result. -/
theorem C3_exact_lookup_witness :
    (∀ op ∈ [Op.insert (ipv4 10 0 0 0) 8 5, Op.remove (ipv4 10 0 0 0) 8,
        Op.insert (ipv4 11 0 0 0) 8 6], op.WellFormed) ∧
    WellFormedKey (ipv4 10 0 0 0) 8 ∧
    Lookup (Remove (run [Op.insert (ipv4 10 0 0 0) 8 5, Op.remove (ipv4 10 0 0 0) 8,
        Op.insert (ipv4 11 0 0 0) 8 6]) (ipv4 10 0 0 0) 8).1 (ipv4 10 0 0 0) 8 true = 0 :=
  ⟨by decide, by decide,
    (C3_exact_lookup [Op.insert (ipv4 10 0 0 0) 8 5, Op.remove (ipv4 10 0 0 0) 8,
      Op.insert (ipv4 11 0 0 0) 8 6] (ipv4 10 0 0 0) 8 (by decide) (by decide)).2.2.1⟩

/-- C4: for every table state and every well-formed key `k`, `LookupBest(k)` returns the
payload of the stored key with the greatest bit-length among the stored keys that
contain `k` (same family, length at most that of `k`, bits a prefix of the bits of `k`),
and returns no result if no stored key contains `k`; with 10.0.0.0/8 -> A,
10.10.0.0/16 -> B and 10.10.10.0/24 -> C stored, 10.10.10.5/32 gives C, 10.10.20.5/32
gives B and 11.0.0.0/32 gives no result. -/
theorem C4_longest_match (T : Table) (a : IPAddr) (w : Int) (hT : TableOK T)
    (hk : WellFormedKey a w) :
    ((∀ q ∈ stored T.tree.head, ¬ covers q (MakePrefix a w)) → Lookup T a w false = 0) ∧
    ((∃ q ∈ stored T.tree.head, covers q (MakePrefix a w)) →
      ∃ q d, (q, d) ∈ entries T.tree.head ∧ covers q (MakePrefix a w) ∧
        (∀ q2 ∈ stored T.tree.head, covers q2 (MakePrefix a w) → q2.bitlen ≤ q.bitlen) ∧
        Lookup T a w false = d) ∧
    (∀ q d, (q, d) ∈ entries T.tree.head → covers q (MakePrefix a w) →
      (∀ q2 ∈ stored T.tree.head, covers q2 (MakePrefix a w) → q2.bitlen ≤ q.bitlen) →
      Lookup T a w false = d) ∧
    (∀ A B C : Nat, A ≠ 0 → B ≠ 0 → C ≠ 0 →
      Lookup (routes A B C) (ipv4 10 10 10 5) 32 false = C ∧
      Lookup (routes A B C) (ipv4 10 10 20 5) 32 false = B ∧
      Lookup (routes A B C) (ipv4 11 0 0 0) 32 false = 0) := by
  obtain ⟨hwf, hkeys, _⟩ := hT
  have hcov : ∀ q ∈ stored T.tree.head,
      (q.keyBits <+: (MakePrefix a w).keyBits ↔ covers q (MakePrefix a w)) :=
    fun q _ => keyBits_prefix_iff q _
  have hspec := searchBest_spec T.tree.head hwf (MakePrefix a w).keyBits
  have hex : ∀ A B C : Nat, A ≠ 0 → B ≠ 0 → C ≠ 0 →
      Lookup (routes A B C) (ipv4 10 10 10 5) 32 false = C ∧
      Lookup (routes A B C) (ipv4 10 10 20 5) 32 false = B ∧
      Lookup (routes A B C) (ipv4 11 0 0 0) 32 false = 0 := by
    intro A B C _ hB hC
    have h1 : Lookup (routes A B C) (ipv4 10 10 10 5) 32 false = if C ≠ 0 then C else 3 := rfl
    have h2 : Lookup (routes A B C) (ipv4 10 10 20 5) 32 false = if B ≠ 0 then B else 2 := rfl
    have h3 : Lookup (routes A B C) (ipv4 11 0 0 0) 32 false = 0 := rfl
    rw [h1, h2, h3, if_pos hB, if_pos hC]
    exact ⟨rfl, rfl, rfl⟩
  rw [Lookup_best_eq]
  cases hs : searchBest T.tree.head (MakePrefix a w).keyBits with
  | none =>
    rw [hs] at hspec
    simp only at hspec
    have hno : ∀ q ∈ stored T.tree.head, ¬ covers q (MakePrefix a w) := by
      intro q hq hc
      exact hspec _ (mem_keysOf_of_stored _ q hq) ((hcov q hq).mpr hc)
    refine ⟨fun _ => rfl, ?_, ?_, hex⟩
    · rintro ⟨q, hq, hc⟩
      exact absurd hc (hno q hq)
    · intro q d hqd hc _
      exact absurd hc (hno q (mem_stored_of_entries _ q d hqd))
  | some pos =>
    rw [hs] at hspec
    simp only at hspec
    obtain ⟨q0, hq0, hpre0, hmax0⟩ := hspec
    have hent := mem_entries_of_subtreeAt _ pos q0 hq0
    have hst0 := mem_stored_of_entries _ _ _ hent
    have hc0 := (hcov q0 hst0).mp hpre0
    have hmax : ∀ q2 ∈ stored T.tree.head, covers q2 (MakePrefix a w) →
        q2.bitlen ≤ q0.bitlen := by
      intro q2 hq2 hc2
      have := hmax0 _ (mem_keysOf_of_stored _ q2 hq2) ((hcov q2 hq2).mpr hc2)
      rw [keyBits_length, keyBits_length] at this
      omega
    refine ⟨?_, ?_, ?_, hex⟩
    · intro hno
      exact absurd hc0 (hno q0 hst0)
    · intro _
      exact ⟨q0, _, hent, hc0, hmax, rfl⟩
    · intro q d hqd hc hqmax
      have hst := mem_stored_of_entries _ q d hqd
      have hle1 := hqmax q0 hst0 hc0
      have hle2 := hmax q hst hc
      have hlen : q.keyBits.length = q0.keyBits.length := by
        rw [keyBits_length, keyBits_length]; omega
      have hp := List.prefix_of_prefix_length_le ((hcov q hst).mpr hc) hpre0 (le_of_eq hlen)
      have heq := hp.eq_of_length hlen
      have := entries_key_unique _ hwf (q, d) (q0, dataOf (subtreeAt T.tree.head pos)) hqd hent heq
      exact (congrArg Prod.snd this).symm

/-- C4, at the table with 10.0.0.0/8 -> 65, 10.10.0.0/16 -> 66, 10.10.10.0/24 -> 67 and
the key 10.10.20.5/32: the /16 is the longest stored key that contains it. -/
theorem C4_longest_match_witness :
    TableOK (routes 65 66 67) ∧ WellFormedKey (ipv4 10 10 20 5) 32 ∧
    Lookup (routes 65 66 67) (ipv4 10 10 20 5) 32 false = 66 :=
  ⟨by decide, by decide,
    (C4_longest_match (routes 65 66 67) (ipv4 10 10 20 5) 32 (by decide) (by decide)).2.2.1
      (MakePrefix (ipv4 10 10 0 0) 16) 66 (by decide) (by decide) (by decide)⟩

end PrefixTable
